import Mathlib

/-!
Verification of the chopsticks game solver (`algo.py`).

The source builds, for a "kill modulus" `k`, the directed graph of reachable
game positions (`generate_graph`), inverts it (`reverse_graph`), and classifies
every position as WIN (+1), LOSS (-1) or DRAW (0) for the player to move by a
worklist retrograde analysis (`solve_graph`).  A generic BFS path finder
(`find_path`) is also present.

Embedding conventions:
* A Python 5-tuple `(p1_left, p1_right, p2_left, p2_right, turn)` becomes the
  structure `Position` with five `Nat` fields.
* Python `dict`s whose keys are enumerated (the graph) become association
  lists (`Graph`); dicts that are only read and written pointwise
  (`state_lookup`, `winning_children`, the reverse graph) become total
  functions with pointwise update.  In the source every such access is at a
  key that is present, so no `KeyError` behaviour needs to be modelled.
* Python `list(set(xs))` becomes `List.dedup xs` (the order of a Python set is
  unspecified; all claims are order-irrelevant).
* `while` loops become a step function iterated with explicit fuel; the step
  function is the identity once the work stack is empty, and we prove that the
  chosen fuel always suffices, so the fueled result is the loop's fixpoint.
* Python's `stack.append`/`stack.pop()` (LIFO on the list tail) is modelled
  with the head of a Lean list as the top of the stack.
-/

set_option maxRecDepth 10000

/-- A game position: `(p1_left, p1_right, p2_left, p2_right, turn)`. -/
structure Position where
  p1l : Nat
  p1r : Nat
  p2l : Nat
  p2r : Nat
  turn : Nat
deriving DecidableEq, Repr

/-- Read one hand of a two-hand pair, index `0` = left, `1` = right
(`attacker[i]` in the source). -/
def pget (p : Nat × Nat) (i : Fin 2) : Nat :=
  if i = 0 then p.1 else p.2

/-- Write one hand of a two-hand pair (`new_defender[j] = new_value`). -/
def pset (p : Nat × Nat) (i : Fin 2) (v : Nat) : Nat × Nat :=
  if i = 0 then (v, p.2) else (p.1, v)

/-- One iteration of the double loop of `generate_tap_states` (indices `i`, `j`):
`none` when the combination is skipped because a hand is dead. -/
def tapOne (attacker defender : Nat × Nat) (turn k : Nat) (i j : Fin 2) :
    Option Position :=
  if pget attacker i = 0 ∨ pget defender j = 0 then none
  else
    let newValue0 := pget attacker i + pget defender j
    let newValue := if newValue0 ≥ k then 0 else newValue0
    let newDefender := pset defender j newValue
    if turn = 0 then
      some ⟨attacker.1, attacker.2, newDefender.1, newDefender.2, 1⟩
    else
      some ⟨newDefender.1, newDefender.2, attacker.1, attacker.2, 0⟩

/-- The index pairs visited by `for i in range(2): for j in range(2)`. -/
def tapPairs : List (Fin 2 × Fin 2) := [(0, 0), (0, 1), (1, 0), (1, 1)]

/-- `generate_tap_states` from the source: all states resulting from the
attacker tapping the defender with one of his hands, deduplicated. -/
def generate_tap_states (attacker defender : Nat × Nat) (turn k : Nat) :
    List Position :=
  (tapPairs.filterMap (fun ij => tapOne attacker defender turn k ij.1 ij.2)).dedup

/-- `sorted([x, y])` on a two-element list, as a pair. -/
def sortPair (x : Nat × Nat) : Nat × Nat :=
  if x.1 ≤ x.2 then x else (x.2, x.1)

/-- One iteration of the loop of `generate_split_states` for a given
`left_fingers` value: `none` when the split is skipped. -/
def splitOne (attacker defender : Nat × Nat) (turn k leftFingers : Nat) :
    Option Position :=
  let totalFingers := attacker.1 + attacker.2
  let rightFingers := totalFingers - leftFingers
  if leftFingers ≥ k ∨ rightFingers ≥ k then none
  else if sortPair (leftFingers, rightFingers) = sortPair attacker then none
  else if turn = 0 then
    some ⟨leftFingers, rightFingers, defender.1, defender.2, 1⟩
  else
    some ⟨defender.1, defender.2, leftFingers, rightFingers, 0⟩

/-- `generate_split_states` from the source: all states resulting from the
attacker redistributing his fingers, deduplicated. -/
def generate_split_states (attacker defender : Nat × Nat) (turn k : Nat) :
    List Position :=
  ((List.range (attacker.1 + attacker.2 + 1)).filterMap
    (fun leftFingers => splitOne attacker defender turn k leftFingers)).dedup

/-- The terminality test of `generate_graph` (lines 64-67): one player's two
hands are both dead. -/
def isTerminal (s : Position) : Prop :=
  (s.p1l = 0 ∧ s.p1r = 0) ∨ (s.p2l = 0 ∧ s.p2r = 0)

instance (s : Position) : Decidable (isTerminal s) := by
  unfold isTerminal; infer_instance

/-- The attacker's hands as selected from the turn flag (lines 70-75). -/
def attackerOf (s : Position) : Nat × Nat :=
  if s.turn = 0 then (s.p1l, s.p1r) else (s.p2l, s.p2r)

/-- The defender's hands as selected from the turn flag (lines 70-75). -/
def defenderOf (s : Position) : Nat × Nat :=
  if s.turn = 0 then (s.p2l, s.p2r) else (s.p1l, s.p1r)

/-- The successor list built for a non-terminal state: tap states followed by
split states (lines 77-79). -/
def nextStates (k : Nat) (s : Position) : List Position :=
  generate_tap_states (attackerOf s) (defenderOf s) s.turn k ++
    generate_split_states (attackerOf s) (defenderOf s) s.turn k

/-! ### Association-list graphs (Python dicts with enumerated keys) -/

/-- The game graph: a mapping from positions to successor lists, in insertion
order, with unique keys (as a Python dict). -/
abbrev Graph := List (Position × List Position)

/-- Dict lookup. -/
def lookupG : Graph → Position → Option (List Position)
  | [], _ => none
  | e :: rest, s => if e.1 = s then some e.2 else lookupG rest s

/-- `state in graph`. -/
def hasKey (g : Graph) (s : Position) : Bool :=
  (lookupG g s).isSome

/-- `graph[state] = v`: update in place if present, else append a new entry
(insertion order, as a Python dict). -/
def setG : Graph → Position → List Position → Graph
  | [], s, v => [(s, v)]
  | e :: rest, s, v => if e.1 = s then (s, v) :: rest else e :: setG rest s v

/-- `graph.keys()`, in insertion order. -/
def keysG (g : Graph) : List Position := g.map Prod.fst

/-- `graph[state]` where the key is known to be present (`[]` otherwise; the
source never reads a missing key). -/
def succsOf (g : Graph) (s : Position) : List Position :=
  (lookupG g s).getD []

theorem lookupG_eq_none (g : Graph) (s : Position) :
    lookupG g s = none ↔ s ∉ keysG g := by
  induction g with
  | nil => simp [lookupG, keysG]
  | cons e rest ih =>
    by_cases h : e.1 = s
    · subst h; simp [lookupG, keysG]
    · have h' : ¬ s = e.1 := fun hx => h hx.symm
      simp [lookupG, keysG, h, h', ih]

theorem hasKey_iff_mem (g : Graph) (s : Position) :
    hasKey g s = true ↔ s ∈ keysG g := by
  unfold hasKey
  rw [Option.isSome_iff_ne_none]
  constructor
  · intro h
    by_contra hmem
    exact h ((lookupG_eq_none g s).2 hmem)
  · intro h hn
    exact ((lookupG_eq_none g s).1 hn) h

theorem lookupG_mem (g : Graph) (s : Position) (v : List Position)
    (h : lookupG g s = some v) : (s, v) ∈ g := by
  induction g with
  | nil => simp [lookupG] at h
  | cons e rest ih =>
    by_cases he : e.1 = s
    · simp [lookupG, he] at h
      subst h; subst he
      exact List.mem_cons_self _ _
    · simp [lookupG, he] at h
      exact List.mem_cons_of_mem _ (ih h)

theorem mem_lookupG (g : Graph) (s : Position) (v : List Position)
    (hnd : (keysG g).Nodup) (h : (s, v) ∈ g) : lookupG g s = some v := by
  induction g with
  | nil => simp at h
  | cons e rest ih =>
    rw [keysG, List.map_cons, List.nodup_cons] at hnd
    rcases List.mem_cons.1 h with h1 | h1
    · subst h1; simp [lookupG]
    · have hne : ¬ e.1 = s := by
        intro he
        apply hnd.1
        rw [he]
        exact List.mem_map_of_mem Prod.fst h1
      simp only [lookupG, if_neg hne]
      exact ih hnd.2 h1

theorem keysG_setG (g : Graph) (s : Position) (v : List Position) :
    keysG (setG g s v) = if s ∈ keysG g then keysG g else keysG g ++ [s] := by
  induction g with
  | nil => simp [setG, keysG]
  | cons e rest ih =>
    by_cases he : e.1 = s
    · subst he; simp [setG, keysG]
    · have h' : ¬ s = e.1 := fun hx => he hx.symm
      simp only [setG, if_neg he, keysG, List.map_cons] at ih ⊢
      rw [ih]
      by_cases hs : s ∈ List.map Prod.fst rest
      · simp [List.mem_cons, hs, h']
      · simp [List.mem_cons, hs, h']

theorem lookupG_setG_self (g : Graph) (s : Position) (v : List Position) :
    lookupG (setG g s v) s = some v := by
  induction g with
  | nil => simp [setG, lookupG]
  | cons e rest ih =>
    by_cases he : e.1 = s <;> simp [setG, lookupG, he, ih]

theorem lookupG_setG_ne (g : Graph) (s t : Position) (v : List Position)
    (h : t ≠ s) : lookupG (setG g s v) t = lookupG g t := by
  have h' : ¬ s = t := fun hx => h hx.symm
  induction g with
  | nil => simp [setG, lookupG, h']
  | cons e rest ih =>
    by_cases he : e.1 = s
    · subst he
      simp [setG, lookupG, h']
    · by_cases ht : e.1 = t
      · simp [setG, lookupG, he, ht, h', h]
      · simp [setG, lookupG, he, ht, ih]

theorem mem_setG (g : Graph) (s : Position) (v : List Position) (e : Position × List Position)
    (h : e ∈ setG g s v) : e = (s, v) ∨ e ∈ g := by
  induction g with
  | nil => simp [setG] at h; simp [h]
  | cons f rest ih =>
    by_cases hf : f.1 = s
    · simp [setG, hf] at h
      rcases h with h | h
      · exact Or.inl h
      · exact Or.inr (List.mem_cons_of_mem _ h)
    · simp [setG, hf] at h
      rcases h with h | h
      · exact Or.inr (List.mem_cons.2 (Or.inl h))
      · rcases ih h with h1 | h1
        · exact Or.inl h1
        · exact Or.inr (List.mem_cons_of_mem _ h1)

/-! ### The graph builder (`generate_graph`) -/

/-- Every hand value stays below `max k 2` (below `k` once positive hands are
produced, and the initial hands hold `1`), and the turn flag is `0` or `1`.
Used to bound the reachable state space. -/
def validPos (k : Nat) (s : Position) : Prop :=
  s.p1l < max k 2 ∧ s.p1r < max k 2 ∧ s.p2l < max k 2 ∧ s.p2r < max k 2 ∧
    s.turn < 2

instance (k : Nat) (s : Position) : Decidable (validPos k s) := by
  unfold validPos; infer_instance

/-- The player to move in a terminal position is the player whose hands are
dead (claim C7). -/
def turnMatchesDead (s : Position) : Prop :=
  (s.p1l = 0 ∧ s.p1r = 0 → s.turn = 0) ∧ (s.p2l = 0 ∧ s.p2r = 0 → s.turn = 1)

instance (s : Position) : Decidable (turnMatchesDead s) := by
  unfold turnMatchesDead; infer_instance

/-- State of the exploration loop of `generate_graph`: the graph built so far
and the work stack (head = top). -/
structure GenState where
  graph : Graph
  stack : List Position
deriving Repr

/-- The inner `for next_state in next_states` loop of `generate_graph`
(lines 82-85): each successor not yet a key is inserted with an empty
successor list and pushed. -/
def addChildren : Graph → List Position → List Position → Graph × List Position
  | g, st, [] => (g, st)
  | g, st, c :: cs =>
    if hasKey g c then addChildren g st cs
    else addChildren (setG g c []) (c :: st) cs

/-- One iteration of the `while stack` loop of `generate_graph` (identity when
the stack is empty). -/
def genStep (k : Nat) (σ : GenState) : GenState :=
  match σ.stack with
  | [] => σ
  | state :: rest =>
    if isTerminal state then ⟨σ.graph, rest⟩
    else
      let next := nextStates k state
      let g' := setG σ.graph state next
      let p := addChildren g' rest next
      ⟨p.1, p.2⟩

/-- `initial_state = (1, 1, 1, 1, 0)`. -/
def initialState : Position := ⟨1, 1, 1, 1, 0⟩

/-- Fuel that always exceeds the number of loop iterations: the loop runs at
most (number of valid positions) + 1 times. -/
def genFuel (k : Nat) : Nat := 2 * (max k 2) ^ 4 + 2

/-- `generate_graph` from the source.  The loop is modelled by iterating
`genStep`; `genFuel k` steps always empty the stack (proved below), so the
result is `some` of the loop's final graph. -/
def generate_graph (k : Nat) : Option Graph :=
  if ((genStep k)^[genFuel k] ⟨[], [initialState]⟩).stack = [] then
    some ((genStep k)^[genFuel k] ⟨[], [initialState]⟩).graph
  else none

/-! ### C3 and C4: exactness of the transition generators.
The `spec...` definitions below follow the spec's wording and are compared
with the source-derived generators. -/

/-- Modelled from the spec: the result of one attack move, "setting the
defending hand j's value to attacker[i] + defender[j] when that sum is < k and
to 0 when the sum is >= k, leaving the attacker's two hands and the other
defending hand unchanged", assembled "with player 1's hands always in the
first two fields, player 2's in the next two, and the turn flag flipped". -/
def specTapResult (attacker defender : Nat × Nat) (turn k : Nat) (i j : Fin 2) :
    Position :=
  let sum := pget attacker i + pget defender j
  let newDefender := pset defender j (if sum < k then sum else 0)
  if turn = 0 then ⟨attacker.1, attacker.2, newDefender.1, newDefender.2, 1⟩
  else ⟨newDefender.1, newDefender.2, attacker.1, attacker.2, 0⟩

theorem tapOne_eq_some (attacker defender : Nat × Nat) (turn k : Nat)
    (i j : Fin 2) (p : Position) :
    tapOne attacker defender turn k i j = some p ↔
      pget attacker i ≠ 0 ∧ pget defender j ≠ 0 ∧
        p = specTapResult attacker defender turn k i j := by
  by_cases h1 : pget attacker i = 0
  · simp [tapOne, h1]
  by_cases h2 : pget defender j = 0
  · simp [tapOne, h2]
  by_cases hk : pget attacker i + pget defender j < k
  · have hk' : ¬ pget attacker i + pget defender j ≥ k := Nat.not_le.2 hk
    by_cases ht : turn = 0 <;>
      simp [tapOne, specTapResult, h1, h2, hk, hk', ht, eq_comm]
  · have hk' : pget attacker i + pget defender j ≥ k := Nat.not_lt.1 hk
    by_cases ht : turn = 0 <;>
      simp [tapOne, specTapResult, h1, h2, hk, hk', ht, eq_comm]

theorem mem_tapPairs : ∀ ij : Fin 2 × Fin 2, ij ∈ tapPairs := by decide

/-- Modelled from the spec: unordered-pair equality, the comparison used to
exclude no-op splits. -/
def sameUnordered (x y : Nat × Nat) : Prop :=
  (x.1 = y.1 ∧ x.2 = y.2) ∨ (x.1 = y.2 ∧ x.2 = y.1)

theorem sortPair_eq_iff (x y : Nat × Nat) :
    sortPair x = sortPair y ↔ sameUnordered x y := by
  obtain ⟨a, b⟩ := x; obtain ⟨c, d⟩ := y
  unfold sortPair sameUnordered
  by_cases h1 : a ≤ b <;> by_cases h2 : c ≤ d <;>
    simp [h1, h2, Prod.ext_iff] <;> omega

/-- Modelled from the spec: the result of a split move, the defender's hands
unchanged and the turn flag flipped. -/
def specSplitResult (defender : Nat × Nat) (turn : Nat) (l r : Nat) :
    Position :=
  if turn = 0 then ⟨l, r, defender.1, defender.2, 1⟩
  else ⟨defender.1, defender.2, l, r, 0⟩

theorem splitOne_eq_some (attacker defender : Nat × Nat) (turn k l : Nat)
    (p : Position) :
    splitOne attacker defender turn k l = some p ↔
      l < k ∧ attacker.1 + attacker.2 - l < k ∧
        sortPair (l, attacker.1 + attacker.2 - l) ≠ sortPair attacker ∧
        p = specSplitResult defender turn l (attacker.1 + attacker.2 - l) := by
  by_cases hk : l ≥ k ∨ attacker.1 + attacker.2 - l ≥ k
  · constructor
    · intro h
      exfalso
      unfold splitOne at h
      simp [hk] at h
    · rintro ⟨h1, h2, -⟩
      exfalso
      rcases hk with hk | hk <;> omega
  · push_neg at hk
    have h1 : ¬ l ≥ k := Nat.not_le.2 hk.1
    have h2 : ¬ attacker.1 + attacker.2 - l ≥ k := Nat.not_le.2 hk.2
    by_cases hs : sortPair (l, attacker.1 + attacker.2 - l) = sortPair attacker
    · unfold splitOne
      simp [h1, h2, hs, hk.1, hk.2]
    · by_cases ht : turn = 0 <;>
        simp [splitOne, specSplitResult, h1, h2, hs, hk.1, hk.2, ht, eq_comm]

/-- C3: `generate_tap_states` returns exactly the set of positions obtained by
choosing one attacking hand `i` and one defending hand `j` with both values
nonzero and setting defending hand `j` to `attacker[i] + defender[j]` when the
sum is `< k` and to `0` when it is `>= k`, the attacker's hands and the other
defending hand unchanged, player 1's hands always in the first two fields,
player 2's in the next two, and the turn flag flipped. -/
theorem claim_C3 (attacker defender : Nat × Nat) (turn k : Nat) (p : Position) :
    p ∈ generate_tap_states attacker defender turn k ↔
      ∃ i j : Fin 2, pget attacker i ≠ 0 ∧ pget defender j ≠ 0 ∧
        p = specTapResult attacker defender turn k i j := by
  unfold generate_tap_states
  rw [List.mem_dedup, List.mem_filterMap]
  constructor
  · rintro ⟨ij, -, hsome⟩
    rcases (tapOne_eq_some _ _ _ _ _ _ _).1 hsome with ⟨h1, h2, h3⟩
    exact ⟨ij.1, ij.2, h1, h2, h3⟩
  · rintro ⟨i, j, h1, h2, h3⟩
    exact ⟨(i, j), mem_tapPairs _, (tapOne_eq_some _ _ _ _ _ _ _).2 ⟨h1, h2, h3⟩⟩

/-- C4: `generate_split_states` returns exactly the set of positions obtained
by redistributing the attacker's total finger count into a pair `(l, r)` with
neither value `>= k` and the new pair differing from the current attacker pair
as an unordered pair (splits with a zero hand included), the defender's hands
unchanged and the turn flag flipped. -/
theorem claim_C4 (attacker defender : Nat × Nat) (turn k : Nat) (p : Position) :
    p ∈ generate_split_states attacker defender turn k ↔
      ∃ l r : Nat, l + r = attacker.1 + attacker.2 ∧ l < k ∧ r < k ∧
        ¬ sameUnordered (l, r) attacker ∧
        p = specSplitResult defender turn l r := by
  unfold generate_split_states
  rw [List.mem_dedup, List.mem_filterMap]
  constructor
  · rintro ⟨l, hl, hsome⟩
    rw [List.mem_range] at hl
    rcases (splitOne_eq_some _ _ _ _ _ _).1 hsome with ⟨h1, h2, h3, h4⟩
    refine ⟨l, attacker.1 + attacker.2 - l, by omega, h1, h2, ?_, h4⟩
    rw [← sortPair_eq_iff]
    exact h3
  · rintro ⟨l, r, hsum, h1, h2, h3, h4⟩
    have hr : r = attacker.1 + attacker.2 - l := by omega
    subst hr
    refine ⟨l, List.mem_range.2 (by omega), ?_⟩
    rw [splitOne_eq_some]
    refine ⟨h1, h2, ?_, h4⟩
    rw [Ne, sortPair_eq_iff]
    exact h3


theorem generate_tap_states_ne_nil (a d : Nat × Nat) (t k : Nat)
    (ha : a.1 ≠ 0 ∨ a.2 ≠ 0) (hd : d.1 ≠ 0 ∨ d.2 ≠ 0) :
    generate_tap_states a d t k ≠ [] := by
  obtain ⟨i, hi⟩ : ∃ i : Fin 2, pget a i ≠ 0 := by
    rcases ha with h | h
    · exact ⟨0, by simpa [pget] using h⟩
    · exact ⟨1, by simpa [pget] using h⟩
  obtain ⟨j, hj⟩ : ∃ j : Fin 2, pget d j ≠ 0 := by
    rcases hd with h | h
    · exact ⟨0, by simpa [pget] using h⟩
    · exact ⟨1, by simpa [pget] using h⟩
  intro hnil
  have hmem := (claim_C3 a d t k _).2 ⟨i, j, hi, hj, rfl⟩
  rw [hnil] at hmem
  exact absurd hmem (List.not_mem_nil _)

theorem attackerOf_live (s : Position) (h : ¬ isTerminal s) :
    (attackerOf s).1 ≠ 0 ∨ (attackerOf s).2 ≠ 0 := by
  have h1 : s.p1l ≠ 0 ∨ s.p1r ≠ 0 := by unfold isTerminal at h; tauto
  have h2 : s.p2l ≠ 0 ∨ s.p2r ≠ 0 := by unfold isTerminal at h; tauto
  unfold attackerOf
  by_cases ht : s.turn = 0
  · rw [if_pos ht]; exact h1
  · rw [if_neg ht]; exact h2

theorem defenderOf_live (s : Position) (h : ¬ isTerminal s) :
    (defenderOf s).1 ≠ 0 ∨ (defenderOf s).2 ≠ 0 := by
  have h1 : s.p1l ≠ 0 ∨ s.p1r ≠ 0 := by unfold isTerminal at h; tauto
  have h2 : s.p2l ≠ 0 ∨ s.p2r ≠ 0 := by unfold isTerminal at h; tauto
  unfold defenderOf
  by_cases ht : s.turn = 0
  · rw [if_pos ht]; exact h2
  · rw [if_neg ht]; exact h1

theorem nextStates_ne_nil (k : Nat) (s : Position) (h : ¬ isTerminal s) :
    nextStates k s ≠ [] := by
  intro hnil
  unfold nextStates at hnil
  rw [List.append_eq_nil] at hnil
  exact generate_tap_states_ne_nil _ _ _ _ (attackerOf_live s h)
    (defenderOf_live s h) hnil.1

theorem tap_split_disjoint (a d : Nat × Nat) (t k : Nat) :
    ∀ p, p ∈ generate_tap_states a d t k →
      p ∈ generate_split_states a d t k → False := by
  intro p hp hq
  rcases (claim_C3 _ _ _ _ _).1 hp with ⟨i, j, h1, h2, rfl⟩
  rcases (claim_C4 _ _ _ _ _).1 hq with ⟨l, r, hsum, hl, hr, hne, heq⟩
  apply hne
  simp only [sameUnordered]
  by_cases ht : t = 0
  · simp [specTapResult, specSplitResult, ht, Position.mk.injEq] at heq
    omega
  · simp [specTapResult, specSplitResult, ht, Position.mk.injEq] at heq
    omega

theorem nextStates_nodup (k : Nat) (s : Position) : (nextStates k s).Nodup := by
  unfold nextStates
  exact List.Nodup.append (List.nodup_dedup _) (List.nodup_dedup _)
    (fun p hp hq => tap_split_disjoint _ _ _ _ p hp hq)

theorem tapValue_lt (x k : Nat) : (if x < k then x else 0) < max k 2 := by
  split_ifs with h <;> omega

theorem specTapResult_valid (a d : Nat × Nat) (t k : Nat) (i j : Fin 2)
    (ha1 : a.1 < max k 2) (ha2 : a.2 < max k 2)
    (hd1 : d.1 < max k 2) (hd2 : d.2 < max k 2) :
    validPos k (specTapResult a d t k i j) := by
  have v1 := tapValue_lt (a.1 + d.1) k
  have v2 := tapValue_lt (a.1 + d.2) k
  have v3 := tapValue_lt (a.2 + d.1) k
  have v4 := tapValue_lt (a.2 + d.2) k
  unfold specTapResult validPos pget pset
  fin_cases i <;> fin_cases j <;> by_cases ht : t = 0 <;> simp [ht] <;> omega

theorem specSplitResult_valid (d : Nat × Nat) (t k l r : Nat)
    (hl : l < k) (hr : r < k) (hd1 : d.1 < max k 2) (hd2 : d.2 < max k 2) :
    validPos k (specSplitResult d t l r) := by
  unfold specSplitResult validPos
  by_cases ht : t = 0 <;> simp [ht] <;> omega

theorem attackerOf_lt (k : Nat) (s : Position) (hs : validPos k s) :
    (attackerOf s).1 < max k 2 ∧ (attackerOf s).2 < max k 2 := by
  obtain ⟨h1, h2, h3, h4, -⟩ := hs
  unfold attackerOf
  by_cases ht : s.turn = 0
  · rw [if_pos ht]; exact ⟨h1, h2⟩
  · rw [if_neg ht]; exact ⟨h3, h4⟩

theorem defenderOf_lt (k : Nat) (s : Position) (hs : validPos k s) :
    (defenderOf s).1 < max k 2 ∧ (defenderOf s).2 < max k 2 := by
  obtain ⟨h1, h2, h3, h4, -⟩ := hs
  unfold defenderOf
  by_cases ht : s.turn = 0
  · rw [if_pos ht]; exact ⟨h3, h4⟩
  · rw [if_neg ht]; exact ⟨h1, h2⟩

theorem nextStates_valid (k : Nat) (s : Position) (hs : validPos k s) :
    ∀ c ∈ nextStates k s, validPos k c := by
  obtain ⟨ha1, ha2⟩ := attackerOf_lt k s hs
  obtain ⟨hd1, hd2⟩ := defenderOf_lt k s hs
  intro c hc
  unfold nextStates at hc
  rcases List.mem_append.1 hc with hc | hc
  · rcases (claim_C3 _ _ _ _ _).1 hc with ⟨i, j, -, -, rfl⟩
    exact specTapResult_valid _ _ _ _ _ _ ha1 ha2 hd1 hd2
  · rcases (claim_C4 _ _ _ _ _).1 hc with ⟨l, r, -, hl, hr, -, rfl⟩
    exact specSplitResult_valid _ _ _ _ _ hl hr hd1 hd2

theorem specTapResult_T (a d : Nat × Nat) (t k : Nat) (i j : Fin 2)
    (hi : pget a i ≠ 0) : turnMatchesDead (specTapResult a d t k i j) := by
  have ha : ¬ (a.1 = 0 ∧ a.2 = 0) := by
    rintro ⟨h1, h2⟩
    apply hi
    fin_cases i <;> simp [pget, h1, h2]
  unfold specTapResult turnMatchesDead
  split_ifs <;> simp <;> intro h1 h2 <;> exact absurd ⟨h1, h2⟩ ha

theorem specSplitResult_T (d : Nat × Nat) (t l r : Nat)
    (hlr : ¬ (l = 0 ∧ r = 0)) : turnMatchesDead (specSplitResult d t l r) := by
  unfold specSplitResult turnMatchesDead
  split_ifs <;> simp <;> intro h1 h2 <;> exact absurd ⟨h1, h2⟩ hlr

theorem nextStates_T (k : Nat) (s : Position) :
    ∀ c ∈ nextStates k s, turnMatchesDead c := by
  intro c hc
  unfold nextStates at hc
  rcases List.mem_append.1 hc with hc | hc
  · rcases (claim_C3 _ _ _ _ _).1 hc with ⟨i, j, hi, -, rfl⟩
    exact specTapResult_T _ _ _ _ _ _ hi
  · rcases (claim_C4 _ _ _ _ _).1 hc with ⟨l, r, hsum, -, -, hne, rfl⟩
    apply specSplitResult_T
    rintro ⟨rfl, rfl⟩
    apply hne
    simp only [sameUnordered]
    simp at hsum ⊢
    omega

/-! ### Properties of the exploration loop of `generate_graph` -/

theorem hasKey_false_iff (g : Graph) (s : Position) :
    hasKey g s = false ↔ s ∉ keysG g := by
  rw [← hasKey_iff_mem]
  cases hasKey g s <;> simp

theorem addChildren_stack_mono (cs : List Position) :
    ∀ (g : Graph) (st : List Position) (p : Position), p ∈ st →
      p ∈ (addChildren g st cs).2 := by
  induction cs with
  | nil => intro g st p h; exact h
  | cons c cs ih =>
    intro g st p h
    cases hk : hasKey g c
    · simp only [addChildren, hk, Bool.false_eq_true, if_false]
      exact ih _ _ p (List.mem_cons_of_mem _ h)
    · simp only [addChildren, hk, if_true]
      exact ih g st p h

theorem addChildren_stack_from (cs : List Position) :
    ∀ (g : Graph) (st : List Position) (p : Position),
      p ∈ (addChildren g st cs).2 → p ∈ st ∨ p ∈ cs := by
  induction cs with
  | nil => intro g st p h; exact Or.inl h
  | cons c cs ih =>
    intro g st p h
    cases hk : hasKey g c
    · simp only [addChildren, hk, Bool.false_eq_true, if_false] at h
      rcases ih _ _ p h with h1 | h1
      · rcases List.mem_cons.1 h1 with h2 | h2
        · exact Or.inr (h2 ▸ List.mem_cons_self _ _)
        · exact Or.inl h2
      · exact Or.inr (List.mem_cons_of_mem _ h1)
    · simp only [addChildren, hk, if_true] at h
      rcases ih _ _ p h with h1 | h1
      · exact Or.inl h1
      · exact Or.inr (List.mem_cons_of_mem _ h1)

theorem addChildren_lookup_keep (cs : List Position) :
    ∀ (g : Graph) (st : List Position) (p : Position), lookupG g p ≠ none →
      lookupG (addChildren g st cs).1 p = lookupG g p := by
  induction cs with
  | nil => intro g st p _; rfl
  | cons c cs ih =>
    intro g st p hp
    cases hk : hasKey g c
    · simp only [addChildren, hk, Bool.false_eq_true, if_false]
      have hc : c ∉ keysG g := (hasKey_false_iff g c).1 hk
      have hpc : p ≠ c := by
        intro hpc
        subst hpc
        exact hp ((lookupG_eq_none g p).2 hc)
      have heq : lookupG (setG g c []) p = lookupG g p :=
        lookupG_setG_ne g c p [] hpc
      rw [ih _ _ p (by rw [heq]; exact hp), heq]
    · simp only [addChildren, hk, if_true]
      exact ih g st p hp

theorem addChildren_lookup_char (cs : List Position) :
    ∀ (g : Graph) (st : List Position) (p : Position) (v : List Position),
      lookupG (addChildren g st cs).1 p = some v →
      lookupG g p = some v ∨
        (lookupG g p = none ∧ v = [] ∧ p ∈ (addChildren g st cs).2 ∧ p ∈ cs) := by
  induction cs with
  | nil => intro g st p v h; exact Or.inl h
  | cons c cs ih =>
    intro g st p v h
    cases hk : hasKey g c
    · simp only [addChildren, hk, Bool.false_eq_true, if_false] at h ⊢
      have hc : c ∉ keysG g := (hasKey_false_iff g c).1 hk
      by_cases hpc : p = c
      · subst hpc
        have hnone : lookupG g p = none := (lookupG_eq_none g p).2 hc
        rcases ih _ _ p v h with h1 | ⟨h1, -, -, -⟩
        · rw [lookupG_setG_self] at h1
          have hv : v = [] := by cases h1; rfl
          subst hv
          refine Or.inr ⟨hnone, rfl, ?_, List.mem_cons_self _ _⟩
          exact addChildren_stack_mono cs _ _ p (List.mem_cons_self _ _)
        · rw [lookupG_setG_self] at h1
          cases h1
      · have heq : lookupG (setG g c []) p = lookupG g p :=
          lookupG_setG_ne g c p [] hpc
        rcases ih _ _ p v h with h1 | ⟨h1, h2, h3, h4⟩
        · rw [heq] at h1; exact Or.inl h1
        · rw [heq] at h1
          exact Or.inr ⟨h1, h2, h3, List.mem_cons_of_mem _ h4⟩
    · simp only [addChildren, hk, if_true] at h ⊢
      rcases ih g st p v h with h1 | ⟨h1, h2, h3, h4⟩
      · exact Or.inl h1
      · exact Or.inr ⟨h1, h2, h3, List.mem_cons_of_mem _ h4⟩

theorem addChildren_keys_nodup (cs : List Position) :
    ∀ (g : Graph) (st : List Position), (keysG g).Nodup →
      (keysG (addChildren g st cs).1).Nodup := by
  induction cs with
  | nil => intro g st h; exact h
  | cons c cs ih =>
    intro g st h
    cases hk : hasKey g c
    · simp only [addChildren, hk, Bool.false_eq_true, if_false]
      have hc : c ∉ keysG g := (hasKey_false_iff g c).1 hk
      apply ih
      rw [keysG_setG, if_neg hc]
      refine List.Nodup.append h (List.nodup_singleton _) ?_
      intro a ha hb
      rw [List.mem_singleton] at hb
      subst hb
      exact hc ha
    · simp only [addChildren, hk, if_true]
      exact ih g st h

/-- The finite set of all valid positions: bounds the reachable state space. -/
def validF (k : Nat) : Finset Position :=
  ((Finset.range (max k 2)) ×ˢ (Finset.range (max k 2)) ×ˢ (Finset.range (max k 2)) ×ˢ
    (Finset.range (max k 2)) ×ˢ (Finset.range 2)).image
    (fun t => ⟨t.1, t.2.1, t.2.2.1, t.2.2.2.1, t.2.2.2.2⟩)

theorem mem_validF (k : Nat) (p : Position) : p ∈ validF k ↔ validPos k p := by
  unfold validF validPos
  simp only [Finset.mem_image, Finset.mem_product, Finset.mem_range]
  constructor
  · rintro ⟨⟨a, b, c, d, t⟩, ⟨h1, h2, h3, h4, h5⟩, rfl⟩
    exact ⟨h1, h2, h3, h4, h5⟩
  · rintro ⟨h1, h2, h3, h4, h5⟩
    exact ⟨(p.p1l, p.p1r, p.p2l, p.p2r, p.turn), ⟨h1, h2, h3, h4, h5⟩, rfl⟩

theorem validF_card_le (k : Nat) : (validF k).card ≤ 2 * (max k 2) ^ 4 := by
  unfold validF
  refine le_trans Finset.card_image_le ?_
  simp only [Finset.card_product, Finset.card_range]
  exact le_of_eq (by ring)

/-- Loop measure for `generate_graph`: undiscovered valid positions plus
pending stack entries. -/
def genMeasure (k : Nat) (σ : GenState) : Nat :=
  ((validF k) \ (keysG σ.graph).toFinset).card + σ.stack.length

theorem sdiff_insert_key (k : Nat) (K : Finset Position) (c : Position)
    (hc : c ∈ validF k) (hK : c ∉ K) :
    ((validF k) \ insert c K).card + 1 = ((validF k) \ K).card := by
  have h1 : (validF k) \ insert c K = ((validF k) \ K).erase c := by
    ext x
    simp only [Finset.mem_sdiff, Finset.mem_insert, Finset.mem_erase]
    tauto
  rw [h1, Finset.card_erase_of_mem (by simp [Finset.mem_sdiff, hc, hK])]
  have h2 : 0 < ((validF k) \ K).card :=
    Finset.card_pos.2 ⟨c, by simp [Finset.mem_sdiff, hc, hK]⟩
  omega

theorem addChildren_measure (k : Nat) (cs : List Position) :
    ∀ (g : Graph) (st : List Position), (∀ c ∈ cs, validPos k c) →
      ((validF k) \ (keysG (addChildren g st cs).1).toFinset).card +
          (addChildren g st cs).2.length ≤
        ((validF k) \ (keysG g).toFinset).card + st.length := by
  induction cs with
  | nil => intro g st _; exact le_refl _
  | cons c cs ih =>
    intro g st hv
    cases hk : hasKey g c
    · simp only [addChildren, hk, Bool.false_eq_true, if_false]
      have hc : c ∉ keysG g := (hasKey_false_iff g c).1 hk
      refine le_trans (ih _ _ (fun x hx => hv x (List.mem_cons_of_mem _ hx))) ?_
      have hkeys : (keysG (setG g c [])).toFinset = insert c (keysG g).toFinset := by
        rw [keysG_setG, if_neg hc]
        simp only [List.toFinset_append]
        ext x
        simp [or_comm]
      rw [hkeys, List.length_cons]
      have := sdiff_insert_key k (keysG g).toFinset c
        ((mem_validF k c).2 (hv c (List.mem_cons_self _ _)))
        (by simpa using hc)
      omega
    · simp only [addChildren, hk, if_true]
      exact ih g st (fun x hx => hv x (List.mem_cons_of_mem _ hx))

/-- Invariant of the exploration loop of `generate_graph`. -/
structure GInv (k : Nat) (σ : GenState) : Prop where
  keys_nodup : (keysG σ.graph).Nodup
  vals : ∀ p v, lookupG σ.graph p = some v →
    v = [] ∨ (¬ isTerminal p ∧ v = nextStates k p)
  empty_pending : ∀ p, lookupG σ.graph p = some [] → isTerminal p ∨ p ∈ σ.stack
  term_empty : ∀ p v, lookupG σ.graph p = some v → isTerminal p → v = []
  keys_valid : ∀ p v, lookupG σ.graph p = some v → validPos k p
  keys_T : ∀ p v, lookupG σ.graph p = some v → turnMatchesDead p
  stack_valid : ∀ s ∈ σ.stack, validPos k s
  stack_T : ∀ s ∈ σ.stack, turnMatchesDead s

theorem genStep_inv (k : Nat) (σ : GenState) (h : GInv k σ) :
    GInv k (genStep k σ) := by
  obtain ⟨g, stack⟩ := σ
  obtain ⟨knd, vals, pend, term, kvalid, kT, svalid, sT⟩ := h
  cases stack with
  | nil => exact ⟨knd, vals, pend, term, kvalid, kT, svalid, sT⟩
  | cons state rest =>
    by_cases hterm : isTerminal state
    · simp only [genStep, if_pos hterm]
      refine ⟨knd, vals, ?_, term, kvalid, kT, ?_, ?_⟩
      · intro p hp
        rcases pend p hp with h1 | h1
        · exact Or.inl h1
        · rcases List.mem_cons.1 h1 with h2 | h2
          · exact Or.inl (h2 ▸ hterm)
          · exact Or.inr h2
      · intro s hs; exact svalid s (List.mem_cons_of_mem _ hs)
      · intro s hs; exact sT s (List.mem_cons_of_mem _ hs)
    · simp only [genStep, if_neg hterm]
      have hsv : validPos k state := svalid state (List.mem_cons_self _ _)
      have hcv : ∀ c ∈ nextStates k state, validPos k c :=
        nextStates_valid k state hsv
      have hcT : ∀ c ∈ nextStates k state, turnMatchesDead c :=
        nextStates_T k state
      have hnn : nextStates k state ≠ [] := nextStates_ne_nil k state hterm
      have hl1self : lookupG (setG g state (nextStates k state)) state =
          some (nextStates k state) := lookupG_setG_self g state _
      have hl1ne : ∀ p, p ≠ state →
          lookupG (setG g state (nextStates k state)) p = lookupG g p :=
        fun p hp => lookupG_setG_ne g state p _ hp
      have hnd1 : (keysG (setG g state (nextStates k state))).Nodup := by
        rw [keysG_setG]
        by_cases hmem : state ∈ keysG g
        · simpa [hmem] using knd
        · rw [if_neg hmem]
          refine List.Nodup.append knd (List.nodup_singleton _) ?_
          intro a ha hb
          rw [List.mem_singleton] at hb
          subst hb
          exact hmem ha
      refine ⟨?_, ?_, ?_, ?_, ?_, ?_, ?_, ?_⟩
      · exact addChildren_keys_nodup _ _ _ hnd1
      · intro p v hv
        rcases addChildren_lookup_char _ _ _ p v hv with h1 | ⟨-, h2, -, -⟩
        · by_cases hps : p = state
          · subst hps
            rw [hl1self] at h1
            exact Or.inr ⟨hterm, (Option.some.inj h1).symm⟩
          · rw [hl1ne p hps] at h1
            exact vals p v h1
        · exact Or.inl h2
      · intro p hp
        rcases addChildren_lookup_char _ _ _ p [] hp with h1 | ⟨-, -, h3, -⟩
        · by_cases hps : p = state
          · subst hps
            rw [hl1self] at h1
            exact absurd (Option.some.inj h1) hnn
          · rw [hl1ne p hps] at h1
            rcases pend p h1 with h2 | h2
            · exact Or.inl h2
            · rcases List.mem_cons.1 h2 with h3 | h3
              · exact absurd h3 hps
              · exact Or.inr (addChildren_stack_mono _ _ _ p h3)
        · exact Or.inr h3
      · intro p v hv hpterm
        rcases addChildren_lookup_char _ _ _ p v hv with h1 | ⟨-, h2, -, -⟩
        · by_cases hps : p = state
          · exact absurd (hps ▸ hpterm) hterm
          · rw [hl1ne p hps] at h1
            exact term p v h1 hpterm
        · exact h2
      · intro p v hv
        rcases addChildren_lookup_char _ _ _ p v hv with h1 | ⟨-, -, -, h4⟩
        · by_cases hps : p = state
          · subst hps; exact hsv
          · rw [hl1ne p hps] at h1
            exact kvalid p v h1
        · exact hcv p h4
      · intro p v hv
        rcases addChildren_lookup_char _ _ _ p v hv with h1 | ⟨-, -, -, h4⟩
        · by_cases hps : p = state
          · subst hps; exact sT p (List.mem_cons_self _ _)
          · rw [hl1ne p hps] at h1
            exact kT p v h1
        · exact hcT p h4
      · intro s hs
        rcases addChildren_stack_from _ _ _ s hs with h1 | h1
        · exact svalid s (List.mem_cons_of_mem _ h1)
        · exact hcv s h1
      · intro s hs
        rcases addChildren_stack_from _ _ _ s hs with h1 | h1
        · exact sT s (List.mem_cons_of_mem _ h1)
        · exact hcT s h1

theorem genStep_measure (k : Nat) (σ : GenState) (hinv : GInv k σ)
    (hne : σ.stack ≠ []) : genMeasure k (genStep k σ) < genMeasure k σ := by
  obtain ⟨g, stack⟩ := σ
  cases stack with
  | nil => exact absurd rfl hne
  | cons state rest =>
    by_cases hterm : isTerminal state
    · simp only [genStep, if_pos hterm, genMeasure, List.length_cons]
      omega
    · simp only [genStep, if_neg hterm, genMeasure, List.length_cons]
      have hsv : validPos k state := hinv.stack_valid state (List.mem_cons_self _ _)
      have hcv : ∀ c ∈ nextStates k state, validPos k c :=
        nextStates_valid k state hsv
      have h1 := addChildren_measure k (nextStates k state)
        (setG g state (nextStates k state)) rest hcv
      have h2 : ((validF k) \ (keysG (setG g state (nextStates k state))).toFinset).card ≤
          ((validF k) \ (keysG g).toFinset).card := by
        apply Finset.card_le_card
        apply Finset.sdiff_subset_sdiff (le_refl _)
        intro x hx
        rw [List.mem_toFinset] at hx ⊢
        rw [keysG_setG]
        by_cases hmem : state ∈ keysG g
        · rwa [if_pos hmem]
        · rw [if_neg hmem]
          exact List.mem_append_left _ hx
      omega

theorem genStep_fix (k : Nat) (σ : GenState) (h : σ.stack = []) :
    genStep k σ = σ := by
  obtain ⟨g, stack⟩ := σ
  cases stack with
  | nil => rfl
  | cons a l => cases h

theorem genIter_fix (k n : Nat) (σ : GenState) (h : σ.stack = []) :
    (genStep k)^[n] σ = σ := by
  induction n with
  | zero => rfl
  | succ n ih => rw [Function.iterate_succ_apply, genStep_fix k σ h, ih]

theorem gen_term (k : Nat) :
    ∀ (n : Nat) (σ : GenState), GInv k σ → genMeasure k σ ≤ n →
      ((genStep k)^[n] σ).stack = [] := by
  intro n
  induction n with
  | zero =>
    intro σ _ hm
    unfold genMeasure at hm
    have : σ.stack.length = 0 := by omega
    exact List.length_eq_zero.1 this
  | succ n ih =>
    intro σ hinv hm
    by_cases hs : σ.stack = []
    · rw [genIter_fix k _ σ hs]; exact hs
    · rw [Function.iterate_succ_apply]
      apply ih _ (genStep_inv k σ hinv)
      have := genStep_measure k σ hinv hs
      omega

theorem genInv_init (k : Nat) : GInv k ⟨[], [initialState]⟩ := by
  refine ⟨List.nodup_nil, ?_, ?_, ?_, ?_, ?_, ?_, ?_⟩
  · intro p v h; cases h
  · intro p h; cases h
  · intro p v h; cases h
  · intro p v h; cases h
  · intro p v h; cases h
  · intro s hs
    rw [List.mem_singleton] at hs
    subst hs
    refine ⟨?_, ?_, ?_, ?_, ?_⟩ <;> simp [initialState]
  · intro s hs
    rw [List.mem_singleton] at hs
    subst hs
    exact ⟨by simp [initialState], by simp [initialState]⟩

theorem genInv_iter (k n : Nat) :
    GInv k ((genStep k)^[n] ⟨[], [initialState]⟩) := by
  induction n with
  | zero => exact genInv_init k
  | succ n ih => rw [Function.iterate_succ_apply']; exact genStep_inv k _ ih

theorem generate_graph_isSome (k : Nat) : (generate_graph k).isSome := by
  unfold generate_graph
  have hm : genMeasure k ⟨[], [initialState]⟩ ≤ genFuel k := by
    unfold genMeasure genFuel
    simp only [keysG, List.map_nil, List.toFinset_nil, Finset.sdiff_empty,
      List.length_singleton]
    have := validF_card_le k
    omega
  rw [gen_term k (genFuel k) _ (genInv_init k) hm]
  simp

theorem generate_graph_eq (k : Nat) (g : Graph)
    (h : generate_graph k = some g) :
    ((genStep k)^[genFuel k] ⟨[], [initialState]⟩).graph = g ∧
      ((genStep k)^[genFuel k] ⟨[], [initialState]⟩).stack = [] := by
  unfold generate_graph at h
  by_cases hs : ((genStep k)^[genFuel k] (⟨[], [initialState]⟩ : GenState)).stack = []
  · rw [if_pos hs] at h
    exact ⟨Option.some.inj h, hs⟩
  · rw [if_neg hs] at h
    cases h

/-- All structural facts about the finished graph, packaged. -/
theorem generate_graph_final (k : Nat) (g : Graph)
    (h : generate_graph k = some g) :
    (keysG g).Nodup ∧
      (∀ p v, lookupG g p = some v →
        v = [] ∨ (¬ isTerminal p ∧ v = nextStates k p)) ∧
      (∀ p, lookupG g p = some [] → isTerminal p) ∧
      (∀ p v, lookupG g p = some v → isTerminal p → v = []) ∧
      (∀ p v, lookupG g p = some v → validPos k p) ∧
      (∀ p v, lookupG g p = some v → turnMatchesDead p) := by
  obtain ⟨hg, hs⟩ := generate_graph_eq k g h
  have hinv := genInv_iter k (genFuel k)
  obtain ⟨knd, vals, pend, term, kvalid, kT, -, -⟩ := hinv
  rw [hg] at knd vals pend term kvalid kT
  refine ⟨knd, vals, ?_, term, kvalid, kT⟩
  intro p hp
  rcases pend p hp with h1 | h1
  · exact h1
  · rw [hs] at h1
    cases h1

theorem mem_keysG_lookup (g : Graph) (p : Position) (h : p ∈ keysG g) :
    ∃ v, lookupG g p = some v := by
  rcases ho : lookupG g p with _ | v
  · exact absurd h ((lookupG_eq_none g p).1 ho)
  · exact ⟨v, rfl⟩

/-- C2: for every `k ≥ 2`, in the graph returned by `generate_graph k`, a
position is mapped to an empty successor list iff one player's two hands are
both `0`; equivalently every non-terminal key has a non-empty successor
list. -/
theorem claim_C2 (k : Nat) (_hk : 2 ≤ k) :
    ∃ g, generate_graph k = some g ∧
      ∀ p ∈ keysG g, (succsOf g p = [] ↔ isTerminal p) := by
  obtain ⟨g, hg⟩ := Option.isSome_iff_exists.1 (generate_graph_isSome k)
  obtain ⟨-, -, pend, term, -, -⟩ := generate_graph_final k g hg
  refine ⟨g, hg, ?_⟩
  intro p hp
  obtain ⟨v, hv⟩ := mem_keysG_lookup g p hp
  unfold succsOf
  rw [hv, Option.getD_some]
  constructor
  · intro he; subst he; exact pend p hv
  · intro ht; exact term p v hv ht

/-- C2 witness at `k = 2`. -/
theorem claim_C2_witness :
    2 ≤ 2 ∧ ∃ g, generate_graph 2 = some g ∧
      ∀ p ∈ keysG g, (succsOf g p = [] ↔ isTerminal p) :=
  ⟨le_refl 2, claim_C2 2 (le_refl 2)⟩

/-- C5: for every `k ≥ 2`, every position expanded by `generate_graph k`
stores the concatenation of the tap-generated and split-generated successor
lists, and that stored list has no duplicates (at most one edge between any
ordered pair of positions). -/
theorem claim_C5 (k : Nat) (_hk : 2 ≤ k) :
    ∃ g, generate_graph k = some g ∧
      ∀ p ∈ keysG g,
        (¬ isTerminal p →
          succsOf g p =
            generate_tap_states (attackerOf p) (defenderOf p) p.turn k ++
              generate_split_states (attackerOf p) (defenderOf p) p.turn k) ∧
        (succsOf g p).Nodup := by
  obtain ⟨g, hg⟩ := Option.isSome_iff_exists.1 (generate_graph_isSome k)
  obtain ⟨-, vals, pend, -, -, -⟩ := generate_graph_final k g hg
  refine ⟨g, hg, ?_⟩
  intro p hp
  obtain ⟨v, hv⟩ := mem_keysG_lookup g p hp
  unfold succsOf
  rw [hv, Option.getD_some]
  constructor
  · intro hnt
    rcases vals p v hv with h1 | ⟨-, h2⟩
    · subst h1; exact absurd (pend p hv) hnt
    · rw [h2]; rfl
  · rcases vals p v hv with h1 | ⟨-, h2⟩
    · subst h1; exact List.nodup_nil
    · rw [h2]; exact nextStates_nodup k p

/-- C5 witness at `k = 2`. -/
theorem claim_C5_witness :
    2 ≤ 2 ∧ ∃ g, generate_graph 2 = some g ∧
      ∀ p ∈ keysG g,
        (¬ isTerminal p →
          succsOf g p =
            generate_tap_states (attackerOf p) (defenderOf p) p.turn 2 ++
              generate_split_states (attackerOf p) (defenderOf p) p.turn 2) ∧
        (succsOf g p).Nodup :=
  ⟨le_refl 2, claim_C5 2 (le_refl 2)⟩

/-- C7: for every `k ≥ 2`, every terminal position that is a key of the graph
produced by `generate_graph k` has its turn flag equal to the player whose
two hands are both `0`. -/
theorem claim_C7 (k : Nat) (_hk : 2 ≤ k) :
    ∃ g, generate_graph k = some g ∧
      ∀ p ∈ keysG g, isTerminal p → turnMatchesDead p := by
  obtain ⟨g, hg⟩ := Option.isSome_iff_exists.1 (generate_graph_isSome k)
  obtain ⟨-, -, -, -, -, kT⟩ := generate_graph_final k g hg
  refine ⟨g, hg, ?_⟩
  intro p hp _
  obtain ⟨v, hv⟩ := mem_keysG_lookup g p hp
  exact kT p v hv

/-- C7 witness at `k = 2`. -/
theorem claim_C7_witness :
    2 ≤ 2 ∧ ∃ g, generate_graph 2 = some g ∧
      ∀ p ∈ keysG g, isTerminal p → turnMatchesDead p :=
  ⟨le_refl 2, claim_C7 2 (le_refl 2)⟩

/-- C9 counterexample: `generate_graph` performs no validation of `k`.
At `k = 1` it silently returns a normal (`some`) multi-node graph instead of
any distinct invalid-parameter outcome. -/
theorem claim_C9_cex :
    (generate_graph 1).isSome = true ∧
      2 ≤ ((generate_graph 1).getD []).length := by
  constructor
  · decide
  · decide

/-- C9 (amended): graph construction does not reject `k ≤ 1`; it silently
returns a graph (with more than one node) exactly as for any other `k`. -/
theorem claim_C9 (k : Nat) (hk : k ≤ 1) :
    ∃ g, generate_graph k = some g ∧ 2 ≤ g.length := by
  interval_cases k
  · exact ⟨(generate_graph 0).getD [], by decide, by decide⟩
  · exact ⟨(generate_graph 1).getD [], by decide, by decide⟩

/-- C9 witness at `k = 1`. -/
theorem claim_C9_witness :
    1 ≤ 1 ∧ ∃ g, generate_graph 1 = some g ∧ 2 ≤ g.length :=
  ⟨le_refl 1, claim_C9 1 (le_refl 1)⟩

/-! ### `reverse_graph` -/

/-- `reverse_graph` from the source, as a function from a position to the list
of its predecessors.  The source initialises `{state: [] for state in g}` and
appends `state` to `g_reverse[child]` for every edge; it is only ever read at
keys of `g`, so the dict is modelled as a total function defaulting to `[]`. -/
def reverse_graph (g : Graph) : Position → List Position :=
  g.foldl
    (fun acc e =>
      e.2.foldl (fun acc2 c => fun q => if q = c then acc2 c ++ [e.1] else acc2 q)
        acc)
    (fun _ => [])

theorem revInner (p : Position) (cs : List Position) :
    ∀ (acc : Position → List Position) (q : Position),
      (cs.foldl (fun acc2 c => fun q => if q = c then acc2 c ++ [p] else acc2 q)
        acc) q = acc q ++ List.replicate (cs.count q) p := by
  induction cs with
  | nil => intro acc q; simp
  | cons c cs ih =>
    intro acc q
    simp only [List.foldl_cons]
    rw [ih]
    by_cases hqc : q = c
    · subst hqc
      simp [List.count_cons, List.replicate_succ]
    · have hcq : ¬ c = q := fun h => hqc h.symm
      simp [hqc, hcq, List.count_cons]

theorem reverse_graph_char (g : Graph) (c : Position) :
    reverse_graph g c =
      (g.map (fun e => List.replicate (e.2.count c) e.1)).flatten := by
  suffices h : ∀ acc : Position → List Position,
      (g.foldl
        (fun acc e =>
          e.2.foldl
            (fun acc2 c => fun q => if q = c then acc2 c ++ [e.1] else acc2 q)
            acc)
        acc) c = acc c ++ (g.map (fun e => List.replicate (e.2.count c) e.1)).flatten by
    have := h (fun _ => [])
    simpa [reverse_graph] using this
  induction g with
  | nil => intro acc; simp
  | cons e g ih =>
    intro acc
    simp only [List.foldl_cons, List.map_cons, List.flatten_cons]
    rw [ih, revInner, List.append_assoc]

theorem mem_reverse_graph (g : Graph) (hnd : (keysG g).Nodup) (q c : Position) :
    q ∈ reverse_graph g c ↔ c ∈ succsOf g q ∧ q ∈ keysG g := by
  rw [reverse_graph_char, List.mem_flatten]
  constructor
  · rintro ⟨l, hl, hql⟩
    rw [List.mem_map] at hl
    obtain ⟨e, he, rfl⟩ := hl
    rw [List.mem_replicate] at hql
    obtain ⟨hcnt, rfl⟩ := hql
    have hc : c ∈ e.2 := by
      by_contra hcn
      exact hcnt (by rw [List.count_eq_zero.2 hcn])
    have hlk : lookupG g e.1 = some e.2 := mem_lookupG g e.1 e.2 hnd (by
      rcases e with ⟨a, b⟩; exact he)
    refine ⟨?_, ?_⟩
    · unfold succsOf; rw [hlk]; exact hc
    · exact List.mem_map_of_mem Prod.fst he
  · rintro ⟨hc, hq⟩
    obtain ⟨v, hv⟩ := mem_keysG_lookup g q hq
    have hcv : c ∈ v := by
      unfold succsOf at hc; rwa [hv] at hc
    refine ⟨List.replicate (v.count c) q, ?_, ?_⟩
    · rw [List.mem_map]
      exact ⟨(q, v), lookupG_mem g q v hv, rfl⟩
    · rw [List.mem_replicate]
      refine ⟨?_, rfl⟩
      have := List.count_pos_iff.2 hcv
      omega
  
theorem reverse_graph_sub (g : Graph) (hnd : (keysG g).Nodup)
    (hvals : ∀ p v, lookupG g p = some v → v.Nodup) (c : Position) :
    reverse_graph g c = (g.filter (fun e => decide (c ∈ e.2))).map Prod.fst := by
  rw [reverse_graph_char]
  have hcnt : ∀ e ∈ g, e.2.count c ≤ 1 := by
    intro e he
    have hlk : lookupG g e.1 = some e.2 := mem_lookupG g e.1 e.2 hnd (by
      rcases e with ⟨a, b⟩; exact he)
    exact (List.nodup_iff_count_le_one.1 (hvals e.1 e.2 hlk)) c
  induction g with
  | nil => rfl
  | cons e g ih =>
    have hnd' : (keysG g).Nodup := by
      rw [keysG, List.map_cons, List.nodup_cons] at hnd
      exact hnd.2
    simp only [List.map_cons, List.flatten_cons, List.filter_cons]
    by_cases hc : c ∈ e.2
    · have h1 : e.2.count c = 1 := by
        have := hcnt e (List.mem_cons_self _ _)
        have := List.count_pos_iff.2 hc
        omega
      rw [h1]
      simp only [List.replicate_one, hc, decide_True, List.map_cons]
      rw [List.singleton_append]
      congr 1
      exact ih hnd' (fun p v hv => hvals p v (by
        rw [keysG, List.map_cons, List.nodup_cons] at hnd
        by_cases hpe : e.1 = p
        · exact absurd (hpe ▸ (List.mem_map_of_mem Prod.fst (lookupG_mem g p v hv)))
            (hpe ▸ hnd.1)
        · simp only [lookupG, if_neg hpe]; exact hv))
        (fun x hx => hcnt x (List.mem_cons_of_mem _ hx))
    · have h0 : e.2.count c = 0 := by
        rw [List.count_eq_zero]; exact hc
      rw [h0]
      simp only [List.replicate_zero, hc, decide_False, List.nil_append]
      exact ih hnd' (fun p v hv => hvals p v (by
        rw [keysG, List.map_cons, List.nodup_cons] at hnd
        by_cases hpe : e.1 = p
        · exact absurd (hpe ▸ (List.mem_map_of_mem Prod.fst (lookupG_mem g p v hv)))
            (hpe ▸ hnd.1)
        · simp only [lookupG, if_neg hpe]; exact hv))
        (fun x hx => hcnt x (List.mem_cons_of_mem _ hx))

/-! ### Game-theoretic value of a position -/

/-- Forced win/loss values over the graph `g`, as the inductive
(backward-induction) closure described in the solver's docstring:
`Val g true p` — the player to move at `p` has a move to a losing position;
`Val g false p` — every move at `p` (vacuously none, at terminals) hands the
opponent a forced win. -/
inductive Val (g : Graph) : Bool → Position → Prop where
  | win : ∀ p c, c ∈ succsOf g p → Val g false c → Val g true p
  | loss : ∀ p, (∀ c ∈ succsOf g p, Val g true c) → Val g false p

theorem val_disjoint (g : Graph) :
    ∀ b p, Val g b p → Val g (!b) p → False := by
  intro b p h
  induction h with
  | win p c hc hcl ih =>
    intro h2
    cases h2 with
    | loss _ hall => exact ih (hall c hc)
  | loss p hall ih =>
    intro h2
    cases h2 with
    | win _ c hc hcl => exact ih c hc hcl

/-! ### The retrograde solver (`solve_graph`) -/

/-- State of the worklist loop of `solve_graph`: the lookup table, the
winning-children counters, the visited set, the work stack (head = top) and
a flag recording whether the "draw node" error branch ever ran. -/
structure SolveState where
  lk : Position → Int
  wc : Position → Nat
  visited : List Position
  stack : List Position
  err : Bool

/-- Lines 173-177: a LOSS was popped; mark every parent WIN and schedule the
unvisited ones. -/
def lossParents (visited : List Position) :
    List Position → (Position → Int) → List Position →
      (Position → Int) × List Position
  | [], lk, st => (lk, st)
  | p :: ps, lk, st =>
    lossParents visited ps (fun q => if q = p then 1 else lk q)
      (if p ∈ visited then st else p :: st)

/-- Lines 178-184: a WIN was popped; increment each parent's winning-children
counter and mark the parent LOSS (scheduling it) when the counter reaches its
out-degree. -/
def winParents (g : Graph) (visited : List Position) :
    List Position → (Position → Int) → (Position → Nat) → List Position →
      (Position → Int) × (Position → Nat) × List Position
  | [], lk, wc, st => (lk, wc, st)
  | p :: ps, lk, wc, st =>
    if wc p + 1 = (succsOf g p).length then
      winParents g visited ps (fun q => if q = p then -1 else lk q)
        (fun q => if q = p then wc p + 1 else wc q)
        (if p ∈ visited then st else p :: st)
    else
      winParents g visited ps lk (fun q => if q = p then wc p + 1 else wc q) st

/-- One iteration of the `while stack` loop of `solve_graph` (lines 165-186),
the identity once the stack is empty.  The error branch of line 186 (a DRAW
node selected for propagation, merely logged in the source) is recorded in
the `err` flag. -/
def solveStep (g : Graph) (parents : Position → List Position)
    (σ : SolveState) : SolveState :=
  match σ.stack with
  | [] => σ
  | state :: rest =>
    if state ∈ σ.visited then
      { σ with stack := rest }
    else
      if σ.lk state = -1 then
        let r := lossParents (state :: σ.visited) (parents state) σ.lk rest
        ⟨r.1, σ.wc, state :: σ.visited, r.2, σ.err⟩
      else if σ.lk state = 1 then
        let r := winParents g (state :: σ.visited) (parents state) σ.lk σ.wc rest
        ⟨r.1, r.2.1, state :: σ.visited, r.2.2, σ.err⟩
      else
        ⟨σ.lk, σ.wc, state :: σ.visited, rest, true⟩

/-- Lines 150-164: all states start as DRAW, terminal states are seeded LOSS
and form the initial worklist; counters start at zero. -/
def initSolve (g : Graph) : SolveState where
  lk := fun p =>
    match lookupG g p with
    | some [] => -1
    | _ => 0
  wc := fun _ => 0
  visited := []
  stack := ((g.filter (fun e => e.2.isEmpty)).map Prod.fst).reverse
  err := false

/-- Fuel bounding the number of worklist iterations. -/
def solveFuel (g : Graph) : Nat := g.length * (g.length + 1) + g.length + 1

/-- The solver loop state after `n` iterations. -/
def solveIter (g : Graph) (n : Nat) : SolveState :=
  (solveStep g (reverse_graph g))^[n] (initSolve g)

/-- `solve_graph` from the source: builds the graph and the reverse graph,
seeds terminal losses and runs the worklist to its fixpoint, returning the
final lookup table. -/
def solve_graph (k : Nat) : Option (Position → Int) :=
  match generate_graph k with
  | none => none
  | some g =>
    if (solveIter g (solveFuel g)).stack = []
    then some (solveIter g (solveFuel g)).lk
    else none

theorem lossParents_lk (visited : List Position) :
    ∀ (ps : List Position) (lk : Position → Int) (st : List Position)
      (q : Position),
      (lossParents visited ps lk st).1 q = if q ∈ ps then 1 else lk q := by
  intro ps
  induction ps with
  | nil => intro lk st q; simp [lossParents]
  | cons p ps ih =>
    intro lk st q
    simp only [lossParents]
    rw [ih]
    by_cases hq : q ∈ ps
    · simp [hq, List.mem_cons]
    · by_cases hqp : q = p
      · simp [hq, hqp, List.mem_cons]
      · simp [hq, hqp, List.mem_cons]

theorem lossParents_stack (visited : List Position) :
    ∀ (ps : List Position) (lk : Position → Int) (st : List Position),
      (lossParents visited ps lk st).2 =
        (ps.filter (fun p => decide (p ∉ visited))).reverse ++ st := by
  intro ps
  induction ps with
  | nil => intro lk st; simp [lossParents]
  | cons p ps ih =>
    intro lk st
    simp only [lossParents]
    rw [ih]
    by_cases hp : p ∈ visited
    · simp [hp, List.filter_cons]
    · simp [hp, List.filter_cons]

theorem winParents_char (g : Graph) (visited : List Position) :
    ∀ (ps : List Position), ps.Nodup →
      ∀ (lk : Position → Int) (wc : Position → Nat) (st : List Position),
      (∀ q, (winParents g visited ps lk wc st).1 q =
        if q ∈ ps ∧ wc q + 1 = (succsOf g q).length then -1 else lk q) ∧
      (∀ q, (winParents g visited ps lk wc st).2.1 q =
        if q ∈ ps then wc q + 1 else wc q) ∧
      (winParents g visited ps lk wc st).2.2 =
        (ps.filter (fun p => decide (wc p + 1 = (succsOf g p).length) &&
          decide (p ∉ visited))).reverse ++ st := by
  intro ps
  induction ps with
  | nil =>
    intro _ lk wc st
    refine ⟨fun q => by simp [winParents], fun q => by simp [winParents],
      by simp [winParents]⟩
  | cons p ps ih =>
    intro hnd lk wc st
    rw [List.nodup_cons] at hnd
    obtain ⟨hp, hnd⟩ := hnd
    by_cases hhit : wc p + 1 = (succsOf g p).length
    · simp only [winParents, if_pos hhit]
      obtain ⟨ih1, ih2, ih3⟩ := ih hnd (fun q => if q = p then -1 else lk q)
        (fun q => if q = p then wc p + 1 else wc q)
        (if p ∈ visited then st else p :: st)
      refine ⟨?_, ?_, ?_⟩
      · intro q
        rw [ih1 q]
        by_cases hqp : q = p
        · subst hqp
          simp [hp, List.mem_cons, hhit]
        · by_cases hq : q ∈ ps <;>
            simp [hq, hqp, List.mem_cons]
      · intro q
        rw [ih2 q]
        by_cases hqp : q = p
        · subst hqp
          simp [hp, List.mem_cons]
        · by_cases hq : q ∈ ps <;>
            simp [hq, hqp, List.mem_cons]
      · rw [ih3]
        have hcongr : ps.filter (fun x =>
            decide ((fun q => if q = p then wc p + 1 else wc q) x + 1 =
              (succsOf g x).length) && decide (x ∉ visited)) =
            ps.filter (fun x => decide (wc x + 1 = (succsOf g x).length) &&
              decide (x ∉ visited)) := by
          apply List.filter_congr
          intro x hx
          have hxp : ¬ x = p := fun hxp => hp (hxp ▸ hx)
          simp [hxp]
        rw [hcongr, List.filter_cons]
        by_cases hpv : p ∈ visited
        · simp [hhit, hpv]
        · simp [hhit, hpv]
    · simp only [winParents, if_neg hhit]
      obtain ⟨ih1, ih2, ih3⟩ := ih hnd lk
        (fun q => if q = p then wc p + 1 else wc q) st
      refine ⟨?_, ?_, ?_⟩
      · intro q
        rw [ih1 q]
        by_cases hqp : q = p
        · subst hqp
          simp [hp, List.mem_cons, hhit]
        · by_cases hq : q ∈ ps <;>
            simp [hq, hqp, List.mem_cons]
      · intro q
        rw [ih2 q]
        by_cases hqp : q = p
        · subst hqp
          simp [hp, List.mem_cons]
        · by_cases hq : q ∈ ps <;>
            simp [hq, hqp, List.mem_cons]
      · rw [ih3]
        have hcongr : ps.filter (fun x =>
            decide ((fun q => if q = p then wc p + 1 else wc q) x + 1 =
              (succsOf g x).length) && decide (x ∉ visited)) =
            ps.filter (fun x => decide (wc x + 1 = (succsOf g x).length) &&
              decide (x ∉ visited)) := by
          apply List.filter_congr
          intro x hx
          have hxp : ¬ x = p := fun hxp => hp (hxp ▸ hx)
          simp [hxp]
        rw [hcongr, List.filter_cons]
        simp [hhit]

theorem filter_len_mono {α : Type} (l : List α) (p q : α → Bool)
    (h : ∀ a ∈ l, p a = true → q a = true) :
    (l.filter p).length ≤ (l.filter q).length := by
  induction l with
  | nil => simp
  | cons b l ih =>
    have ih' := ih (fun x hx => h x (List.mem_cons_of_mem _ hx))
    simp only [List.filter_cons]
    by_cases hp : p b = true
    · rw [if_pos hp, if_pos (h b (List.mem_cons_self _ _) hp)]
      simpa using ih'
    · rw [if_neg hp]
      by_cases hq : q b = true
      · rw [if_pos hq]
        simp only [List.length_cons]
        omega
      · rw [if_neg hq]
        exact ih'

theorem filter_len_lt {α : Type} (l : List α) (p q : α → Bool) (a : α)
    (ha : a ∈ l) (hpa : p a = false) (hqa : q a = true)
    (h : ∀ x ∈ l, p x = true → q x = true) :
    (l.filter p).length < (l.filter q).length := by
  induction l with
  | nil => cases ha
  | cons b l ih =>
    simp only [List.filter_cons]
    rcases List.mem_cons.1 ha with rfl | hal
    · rw [if_neg (by simp [hpa]), if_pos hqa]
      simp only [List.length_cons]
      have := filter_len_mono l p q (fun x hx => h x (List.mem_cons_of_mem _ hx))
      omega
    · have ih' := ih hal (fun x hx => h x (List.mem_cons_of_mem _ hx))
      by_cases hp : p b = true
      · rw [if_pos hp, if_pos (h b (List.mem_cons_self _ _) hp)]
        simpa using ih'
      · rw [if_neg hp]
        by_cases hq : q b = true
        · rw [if_pos hq]
          simp only [List.length_cons]
          omega
        · rw [if_neg hq]
          exact ih'

theorem filter_len_all {α : Type} (l : List α) (p : α → Bool) :
    (l.filter p).length = l.length → ∀ a ∈ l, p a = true := by
  induction l with
  | nil => intro _ a ha; cases ha
  | cons b l ih =>
    intro h a ha
    rw [List.filter_cons] at h
    by_cases hb : p b = true
    · rw [if_pos hb] at h
      simp only [List.length_cons] at h
      rcases List.mem_cons.1 ha with rfl | ha'
      · exact hb
      · exact ih (by omega) a ha'
    · rw [if_neg hb] at h
      have := List.length_filter_le p l
      simp only [List.length_cons] at h
      omega

theorem reverse_graph_nodup (g : Graph) (hnd : (keysG g).Nodup)
    (hvnd : ∀ p v, lookupG g p = some v → v.Nodup) (c : Position) :
    (reverse_graph g c).Nodup := by
  rw [reverse_graph_sub g hnd hvnd c]
  exact List.Nodup.sublist (List.Sublist.map Prod.fst (List.filter_sublist g)) hnd

theorem reverse_graph_len (g : Graph) (hnd : (keysG g).Nodup)
    (hvnd : ∀ p v, lookupG g p = some v → v.Nodup) (c : Position) :
    (reverse_graph g c).length ≤ g.length := by
  rw [reverse_graph_sub g hnd hvnd c, List.length_map]
  exact List.length_filter_le _ _

/-- Invariant of the solver worklist loop. -/
structure SInv (g : Graph) (σ : SolveState) : Prop where
  win_sound : ∀ p, σ.lk p = 1 → Val g true p
  loss_sound : ∀ p, σ.lk p = -1 → Val g false p
  range3 : ∀ p, σ.lk p = 0 ∨ σ.lk p = 1 ∨ σ.lk p = -1
  stack_marked : ∀ p ∈ σ.stack, σ.lk p ≠ 0
  visited_marked : ∀ p ∈ σ.visited, σ.lk p ≠ 0
  marked_reached : ∀ p, σ.lk p ≠ 0 → p ∈ σ.visited ∨ p ∈ σ.stack
  loss_processed : ∀ p ∈ σ.visited, σ.lk p = -1 →
    ∀ q ∈ reverse_graph g p, σ.lk q = 1
  win_justified : ∀ p, σ.lk p = 1 → ∃ c ∈ succsOf g p, σ.lk c = -1
  counter_le : ∀ p, σ.wc p ≤
    ((succsOf g p).filter
      (fun c => decide (c ∈ σ.visited) && decide (σ.lk c = 1))).length
  stack_keys : ∀ p ∈ σ.stack, p ∈ keysG g
  no_err : σ.err = false

theorem initSolve_lk_cases (g : Graph) (p : Position) :
    ((initSolve g).lk p = -1 ∧ lookupG g p = some []) ∨
      (initSolve g).lk p = 0 := by
  simp only [initSolve]
  cases hlp : lookupG g p with
  | none => right; rfl
  | some v =>
    cases v with
    | nil => left; exact ⟨rfl, rfl⟩
    | cons a l => right; rfl

theorem mem_initStack (g : Graph) (p : Position) :
    p ∈ (initSolve g).stack ↔ (p, []) ∈ g := by
  simp only [initSolve, List.mem_reverse, List.mem_map, List.mem_filter]
  constructor
  · rintro ⟨⟨a, b⟩, ⟨he, hemp⟩, rfl⟩
    have hb : b = [] := by
      cases b
      · rfl
      · cases hemp
    subst hb
    exact he
  · intro hmem
    exact ⟨(p, []), ⟨hmem, rfl⟩, rfl⟩

theorem initSolve_inv (g : Graph) (hnd : (keysG g).Nodup) :
    SInv g (initSolve g) := by
  refine ⟨?_, ?_, ?_, ?_, ?_, ?_, ?_, ?_, ?_, ?_, rfl⟩
  · intro p hp
    rcases initSolve_lk_cases g p with ⟨h1, -⟩ | h1 <;> rw [h1] at hp <;> cases hp
  · intro p hp
    rcases initSolve_lk_cases g p with ⟨-, h2⟩ | h1
    · refine Val.loss p ?_
      intro c hc
      unfold succsOf at hc
      rw [h2] at hc
      cases hc
    · rw [h1] at hp; cases hp
  · intro p
    rcases initSolve_lk_cases g p with ⟨h1, -⟩ | h1
    · right; right; exact h1
    · left; exact h1
  · intro p hp
    have hmem := (mem_initStack g p).1 hp
    have hlp : lookupG g p = some [] := mem_lookupG g p [] hnd hmem
    simp only [initSolve, hlp]
    intro hc
    cases hc
  · intro p hp; cases hp
  · intro p hp
    rcases initSolve_lk_cases g p with ⟨-, h2⟩ | h1
    · exact Or.inr ((mem_initStack g p).2 (lookupG_mem g p [] h2))
    · exact absurd h1 hp
  · intro p hp; cases hp
  · intro p hp
    rcases initSolve_lk_cases g p with ⟨h1, -⟩ | h1 <;> rw [h1] at hp <;> cases hp
  · intro p
    exact Nat.zero_le _
  · intro p hp
    have hmem := (mem_initStack g p).1 hp
    exact List.mem_map_of_mem Prod.fst hmem

theorem SInv_mk (g : Graph) (lk : Position → Int) (wc : Position → Nat)
    (visited stack : List Position) (err : Bool)
    (h1 : ∀ p, lk p = 1 → Val g true p)
    (h2 : ∀ p, lk p = -1 → Val g false p)
    (h3 : ∀ p, lk p = 0 ∨ lk p = 1 ∨ lk p = -1)
    (h4 : ∀ p ∈ stack, lk p ≠ 0)
    (h5 : ∀ p ∈ visited, lk p ≠ 0)
    (h6 : ∀ p, lk p ≠ 0 → p ∈ visited ∨ p ∈ stack)
    (h7 : ∀ p ∈ visited, lk p = -1 → ∀ q ∈ reverse_graph g p, lk q = 1)
    (h8 : ∀ p, lk p = 1 → ∃ c ∈ succsOf g p, lk c = -1)
    (h9 : ∀ p, wc p ≤ ((succsOf g p).filter
      (fun c => decide (c ∈ visited) && decide (lk c = 1))).length)
    (h10 : ∀ p ∈ stack, p ∈ keysG g)
    (h11 : err = false) :
    SInv g ⟨lk, wc, visited, stack, err⟩ :=
  ⟨h1, h2, h3, h4, h5, h6, h7, h8, h9, h10, h11⟩

theorem solveStep_inv (g : Graph) (hnd : (keysG g).Nodup)
    (hvnd : ∀ p v, lookupG g p = some v → v.Nodup)
    (σ : SolveState) (h : SInv g σ) :
    SInv g (solveStep g (reverse_graph g) σ) := by
  obtain ⟨lk, wc, visited, stack, err⟩ := σ
  obtain ⟨hws, hls, hr3, hsm, hvm, hmr, hlp, hwj, hcl, hsk, hne⟩ := h
  cases stack with
  | nil => exact ⟨hws, hls, hr3, hsm, hvm, hmr, hlp, hwj, hcl, hsk, hne⟩
  | cons state rest =>
    dsimp only at hws hls hr3 hsm hvm hmr hlp hwj hcl hsk hne
    by_cases hvis : state ∈ visited
    · simp only [solveStep, if_pos hvis]
      refine SInv_mk g lk wc visited rest err hws hls hr3 ?_ hvm ?_ hlp hwj hcl
        ?_ hne
      · intro p hp; exact hsm p (List.mem_cons_of_mem _ hp)
      · intro p hp
        rcases hmr p hp with h1 | h1
        · exact Or.inl h1
        · rcases List.mem_cons.1 h1 with rfl | h2
          · exact Or.inl hvis
          · exact Or.inr h2
      · intro p hp; exact hsk p (List.mem_cons_of_mem _ hp)
    · have hm0 : lk state ≠ 0 := hsm state (List.mem_cons_self _ _)
      rcases hr3 state with h0 | h1 | hm1
      · exact absurd h0 hm0
      · -- WIN was popped
        have hne1 : ¬ lk state = -1 := by rw [h1]; decide
        simp only [solveStep, if_neg hvis, if_neg hne1, if_pos h1]
        have hpsnd : (reverse_graph g state).Nodup :=
          reverse_graph_nodup g hnd hvnd state
        obtain ⟨hw1, hw2, hw3⟩ := winParents_char g (state :: visited)
          (reverse_graph g state) hpsnd lk wc rest
        have hpsfact : ∀ q ∈ reverse_graph g state,
            state ∈ succsOf g q ∧ q ∈ keysG g :=
          fun q hq => (mem_reverse_graph g hnd q state).1 hq
        -- Hitting the counter bound means every child is a forced win.
        have F : ∀ q ∈ reverse_graph g state,
            wc q + 1 = (succsOf g q).length → Val g false q := by
          intro q hq hhit
          have hstate_succ : state ∈ succsOf g q := (hpsfact q hq).1
          have hmono : ∀ x ∈ succsOf g q,
              (decide (x ∈ visited) && decide (lk x = 1)) = true →
              (decide (x ∈ state :: visited) && decide (lk x = 1)) = true := by
            intro x _ hx
            simp only [Bool.and_eq_true, decide_eq_true_eq] at hx ⊢
            exact ⟨List.mem_cons_of_mem _ hx.1, hx.2⟩
          have hlt := filter_len_lt (succsOf g q) _ _ state hstate_succ
            (by simp [hvis]) (by simp [h1]) hmono
          have hle2 := List.length_filter_le
            (fun c => decide (c ∈ state :: visited) && decide (lk c = 1))
            (succsOf g q)
          have hclq := hcl q
          have hall := filter_len_all (succsOf g q)
            (fun c => decide (c ∈ state :: visited) && decide (lk c = 1))
            (by omega)
          refine Val.loss q ?_
          intro c hc
          have := hall c hc
          simp only [Bool.and_eq_true, decide_eq_true_eq] at this
          exact hws c this.2
        have g3 : ∀ c, lk c = 1 →
            ¬ (c ∈ reverse_graph g state ∧
              wc c + 1 = (succsOf g c).length) := by
          rintro c hc1 ⟨hcps, hchit⟩
          exact val_disjoint g true c (hws c hc1) (F c hcps hchit)
        have hkeep1 : ∀ c, lk c = 1 →
            (winParents g (state :: visited) (reverse_graph g state)
              lk wc rest).1 c = 1 := by
          intro c hc1
          rw [hw1 c, if_neg (g3 c hc1)]
          exact hc1
        have hkeepm : ∀ c, lk c = -1 →
            (winParents g (state :: visited) (reverse_graph g state)
              lk wc rest).1 c = -1 := by
          intro c hcm
          rw [hw1 c]
          by_cases hcond : c ∈ reverse_graph g state ∧
              wc c + 1 = (succsOf g c).length
          · rw [if_pos hcond]
          · rw [if_neg hcond]; exact hcm
        refine SInv_mk g _ _ _ _ _ ?_ ?_ ?_ ?_ ?_ ?_ ?_ ?_ ?_ ?_ hne
        · -- win_sound
          intro q hq
          rw [hw1 q] at hq
          by_cases hcond : q ∈ reverse_graph g state ∧
              wc q + 1 = (succsOf g q).length
          · rw [if_pos hcond] at hq; cases hq
          · rw [if_neg hcond] at hq; exact hws q hq
        · -- loss_sound
          intro q hq
          rw [hw1 q] at hq
          by_cases hcond : q ∈ reverse_graph g state ∧
              wc q + 1 = (succsOf g q).length
          · exact F q hcond.1 hcond.2
          · rw [if_neg hcond] at hq; exact hls q hq
        · -- range3
          intro q
          rw [hw1 q]
          by_cases hcond : q ∈ reverse_graph g state ∧
              wc q + 1 = (succsOf g q).length
          · rw [if_pos hcond]; right; right; rfl
          · rw [if_neg hcond]; exact hr3 q
        · -- stack_marked
          intro p hp
          rw [hw3] at hp
          rcases List.mem_append.1 hp with hp1 | hp1
          · rw [List.mem_reverse, List.mem_filter] at hp1
            obtain ⟨hmemps, hflt⟩ := hp1
            simp only [Bool.and_eq_true, decide_eq_true_eq] at hflt
            rw [hw1 p, if_pos ⟨hmemps, hflt.1⟩]
            decide
          · rw [hw1 p]
            by_cases hcond : p ∈ reverse_graph g state ∧
                wc p + 1 = (succsOf g p).length
            · rw [if_pos hcond]; decide
            · rw [if_neg hcond]; exact hsm p (List.mem_cons_of_mem _ hp1)
        · -- visited_marked
          intro p hp
          rcases List.mem_cons.1 hp with rfl | hp1
          · rw [hkeep1 p h1]; decide
          · rw [hw1 p]
            by_cases hcond : p ∈ reverse_graph g state ∧
                wc p + 1 = (succsOf g p).length
            · rw [if_pos hcond]; decide
            · rw [if_neg hcond]; exact hvm p hp1
        · -- marked_reached
          intro p hp
          rw [hw3]
          rw [hw1 p] at hp
          by_cases hcond : p ∈ reverse_graph g state ∧
              wc p + 1 = (succsOf g p).length
          · by_cases hpv : p ∈ state :: visited
            · exact Or.inl hpv
            · refine Or.inr (List.mem_append_left _ ?_)
              rw [List.mem_reverse, List.mem_filter]
              exact ⟨hcond.1, by simp [hcond.2, hpv]⟩
          · rw [if_neg hcond] at hp
            rcases hmr p hp with h2 | h2
            · exact Or.inl (List.mem_cons_of_mem _ h2)
            · rcases List.mem_cons.1 h2 with rfl | h3
              · exact Or.inl (List.mem_cons_self _ _)
              · exact Or.inr (List.mem_append_right _ h3)
        · -- loss_processed
          intro p hpv hpl
          rcases List.mem_cons.1 hpv with rfl | hpv'
          · rw [hkeep1 p h1] at hpl; cases hpl
          · by_cases hlkp : lk p = -1
            · intro q hq
              exact hkeep1 q (hlp p hpv' hlkp q hq)
            · exfalso
              rw [hw1 p] at hpl
              by_cases hcond : p ∈ reverse_graph g state ∧
                  wc p + 1 = (succsOf g p).length
              · have hnz := hvm p hpv'
                rcases hr3 p with hp0 | hp1 | hpm
                · exact hnz hp0
                · exact g3 p hp1 hcond
                · exact hlkp hpm
              · rw [if_neg hcond] at hpl
                exact hlkp hpl
        · -- win_justified
          intro q hq
          have hq1 : lk q = 1 := by
            rw [hw1 q] at hq
            by_cases hcond : q ∈ reverse_graph g state ∧
                wc q + 1 = (succsOf g q).length
            · rw [if_pos hcond] at hq; cases hq
            · rwa [if_neg hcond] at hq
          obtain ⟨c, hc, hcm⟩ := hwj q hq1
          exact ⟨c, hc, hkeepm c hcm⟩
        · -- counter_le
          intro q
          rw [hw2 q]
          have hmono2 : ∀ x ∈ succsOf g q,
              (decide (x ∈ visited) && decide (lk x = 1)) = true →
              (decide (x ∈ state :: visited) &&
                decide ((winParents g (state :: visited)
                  (reverse_graph g state) lk wc rest).1 x = 1)) = true := by
            intro x _ hx
            simp only [Bool.and_eq_true, decide_eq_true_eq] at hx ⊢
            exact ⟨List.mem_cons_of_mem _ hx.1, hkeep1 x hx.2⟩
          by_cases hqps : q ∈ reverse_graph g state
          · rw [if_pos hqps]
            have hstate_succ : state ∈ succsOf g q := (hpsfact q hqps).1
            have hlt := filter_len_lt (succsOf g q) _ _ state hstate_succ
              (by simp [hvis])
              (by simp [hkeep1 state h1])
              hmono2
            have hclq := hcl q
            omega
          · rw [if_neg hqps]
            have hle := filter_len_mono (succsOf g q) _ _ hmono2
            have hclq := hcl q
            omega
        · -- stack_keys
          intro p hp
          rw [hw3] at hp
          rcases List.mem_append.1 hp with hp1 | hp1
          · rw [List.mem_reverse, List.mem_filter] at hp1
            exact (hpsfact p hp1.1).2
          · exact hsk p (List.mem_cons_of_mem _ hp1)
      · -- LOSS was popped
        simp only [solveStep, if_neg hvis, if_pos hm1]
        have hlkq : ∀ q, (lossParents (state :: visited)
            (reverse_graph g state) lk rest).1 q =
            if q ∈ reverse_graph g state then 1 else lk q :=
          fun q => lossParents_lk _ _ lk rest q
        have hstq : (lossParents (state :: visited)
            (reverse_graph g state) lk rest).2 =
            ((reverse_graph g state).filter
              (fun p => decide (p ∉ state :: visited))).reverse ++ rest :=
          lossParents_stack _ _ lk rest
        have hpsfact : ∀ q ∈ reverse_graph g state,
            state ∈ succsOf g q ∧ q ∈ keysG g :=
          fun q hq => (mem_reverse_graph g hnd q state).1 hq
        have f1 : ∀ q ∈ reverse_graph g state, Val g true q := fun q hq =>
          Val.win q state (hpsfact q hq).1 (hls state hm1)
        have f2 : ∀ q ∈ reverse_graph g state, lk q ≠ -1 := by
          intro q hq hq1
          exact val_disjoint g true q (f1 q hq) (hls q hq1)
        have f3 : state ∉ reverse_graph g state := fun hst => f2 state hst hm1
        refine SInv_mk g _ _ _ _ _ ?_ ?_ ?_ ?_ ?_ ?_ ?_ ?_ ?_ ?_ hne
        · -- win_sound
          intro q hq
          rw [hlkq q] at hq
          by_cases hqps : q ∈ reverse_graph g state
          · exact f1 q hqps
          · rw [if_neg hqps] at hq; exact hws q hq
        · -- loss_sound
          intro q hq
          rw [hlkq q] at hq
          by_cases hqps : q ∈ reverse_graph g state
          · rw [if_pos hqps] at hq; cases hq
          · rw [if_neg hqps] at hq; exact hls q hq
        · -- range3
          intro q
          rw [hlkq q]
          by_cases hqps : q ∈ reverse_graph g state
          · rw [if_pos hqps]; right; left; rfl
          · rw [if_neg hqps]; exact hr3 q
        · -- stack_marked
          intro p hp
          rw [hstq] at hp
          rcases List.mem_append.1 hp with hp1 | hp1
          · rw [List.mem_reverse, List.mem_filter] at hp1
            rw [hlkq p, if_pos hp1.1]
            decide
          · rw [hlkq p]
            by_cases hqps : p ∈ reverse_graph g state
            · rw [if_pos hqps]; decide
            · rw [if_neg hqps]; exact hsm p (List.mem_cons_of_mem _ hp1)
        · -- visited_marked
          intro p hp
          rcases List.mem_cons.1 hp with rfl | hp1
          · rw [hlkq p, if_neg f3, hm1]; decide
          · rw [hlkq p]
            by_cases hqps : p ∈ reverse_graph g state
            · rw [if_pos hqps]; decide
            · rw [if_neg hqps]; exact hvm p hp1
        · -- marked_reached
          intro p hp
          rw [hstq]
          rw [hlkq p] at hp
          by_cases hqps : p ∈ reverse_graph g state
          · by_cases hpv : p ∈ state :: visited
            · exact Or.inl hpv
            · refine Or.inr (List.mem_append_left _ ?_)
              rw [List.mem_reverse, List.mem_filter]
              exact ⟨hqps, by simp [hpv]⟩
          · rw [if_neg hqps] at hp
            rcases hmr p hp with h2 | h2
            · exact Or.inl (List.mem_cons_of_mem _ h2)
            · rcases List.mem_cons.1 h2 with rfl | h3
              · exact Or.inl (List.mem_cons_self _ _)
              · exact Or.inr (List.mem_append_right _ h3)
        · -- loss_processed
          intro p hpv hpl
          rcases List.mem_cons.1 hpv with rfl | hpv'
          · intro q hq
            rw [hlkq q, if_pos hq]
          · have hpnot : p ∉ reverse_graph g state := by
              intro hmem
              rw [hlkq p, if_pos hmem] at hpl
              cases hpl
            rw [hlkq p, if_neg hpnot] at hpl
            intro q hq
            have hq1 := hlp p hpv' hpl q hq
            rw [hlkq q]
            by_cases hqps : q ∈ reverse_graph g state
            · rw [if_pos hqps]
            · rw [if_neg hqps]; exact hq1
        · -- win_justified
          intro q hq
          rw [hlkq q] at hq
          by_cases hqps : q ∈ reverse_graph g state
          · refine ⟨state, (hpsfact q hqps).1, ?_⟩
            rw [hlkq state, if_neg f3]
            exact hm1
          · rw [if_neg hqps] at hq
            obtain ⟨c, hc, hcm⟩ := hwj q hq
            have hcnot : c ∉ reverse_graph g state := fun hmem => f2 c hmem hcm
            exact ⟨c, hc, by rw [hlkq c, if_neg hcnot]; exact hcm⟩
        · -- counter_le
          intro q
          have hmono : ∀ x ∈ succsOf g q,
              (decide (x ∈ visited) && decide (lk x = 1)) = true →
              (decide (x ∈ state :: visited) &&
                decide ((lossParents (state :: visited)
                  (reverse_graph g state) lk rest).1 x = 1)) = true := by
            intro x _ hx
            simp only [Bool.and_eq_true, decide_eq_true_eq] at hx ⊢
            refine ⟨List.mem_cons_of_mem _ hx.1, ?_⟩
            rw [hlkq x]
            by_cases hxps : x ∈ reverse_graph g state
            · rw [if_pos hxps]
            · rw [if_neg hxps]; exact hx.2
          have hle := filter_len_mono (succsOf g q) _ _ hmono
          have hclq := hcl q
          omega
        · -- stack_keys
          intro p hp
          rw [hstq] at hp
          rcases List.mem_append.1 hp with hp1 | hp1
          · rw [List.mem_reverse, List.mem_filter] at hp1
            exact (hpsfact p hp1.1).2
          · exact hsk p (List.mem_cons_of_mem _ hp1)

theorem counterFull_loss (g : Graph) (hnd : (keysG g).Nodup)
    (σ : SolveState) (h : SInv g σ) (state : Position)
    (hvis : state ∉ σ.visited) (h1 : σ.lk state = 1)
    (q : Position) (hq : q ∈ reverse_graph g state)
    (hhit : σ.wc q + 1 = (succsOf g q).length) : Val g false q := by
  obtain ⟨hws, -, -, -, -, -, -, -, hcl, -, -⟩ := h
  have hstate_succ : state ∈ succsOf g q :=
    ((mem_reverse_graph g hnd q state).1 hq).1
  have hmono : ∀ x ∈ succsOf g q,
      (decide (x ∈ σ.visited) && decide (σ.lk x = 1)) = true →
      (decide (x ∈ state :: σ.visited) && decide (σ.lk x = 1)) = true := by
    intro x _ hx
    simp only [Bool.and_eq_true, decide_eq_true_eq] at hx ⊢
    exact ⟨List.mem_cons_of_mem _ hx.1, hx.2⟩
  have hlt := filter_len_lt (succsOf g q) _ _ state hstate_succ
    (by simp [hvis]) (by simp [h1]) hmono
  have hle2 := List.length_filter_le
    (fun c => decide (c ∈ state :: σ.visited) && decide (σ.lk c = 1))
    (succsOf g q)
  have hclq := hcl q
  have hall := filter_len_all (succsOf g q)
    (fun c => decide (c ∈ state :: σ.visited) && decide (σ.lk c = 1))
    (by omega)
  refine Val.loss q ?_
  intro c hc
  have := hall c hc
  simp only [Bool.and_eq_true, decide_eq_true_eq] at this
  exact hws c this.2

theorem lossParent_not_loss (g : Graph) (hnd : (keysG g).Nodup)
    (σ : SolveState) (h : SInv g σ) (state : Position)
    (hm1 : σ.lk state = -1) (q : Position)
    (hq : q ∈ reverse_graph g state) : σ.lk q ≠ -1 := by
  intro hq1
  exact val_disjoint g true q
    (Val.win q state ((mem_reverse_graph g hnd q state).1 hq).1
      (h.loss_sound state hm1))
    (h.loss_sound q hq1)

/-- Write-once: a step of the worklist never changes a classification that is
already WIN or LOSS. -/
theorem solveStep_stable (g : Graph) (hnd : (keysG g).Nodup)
    (hvnd : ∀ p v, lookupG g p = some v → v.Nodup)
    (σ : SolveState) (h : SInv g σ) (p : Position) (hp : σ.lk p ≠ 0) :
    (solveStep g (reverse_graph g) σ).lk p = σ.lk p := by
  have hFull := h
  obtain ⟨lk, wc, visited, stack, err⟩ := σ
  obtain ⟨hws, hls, hr3, hsm, hvm, hmr, hlp, hwj, hcl, hsk, hne⟩ := h
  cases stack with
  | nil => rfl
  | cons state rest =>
    dsimp only at hws hls hr3 hsm hvm hmr hlp hwj hcl hsk hne hp
    by_cases hvis : state ∈ visited
    · simp only [solveStep, if_pos hvis]
    · have hm0 : lk state ≠ 0 := hsm state (List.mem_cons_self _ _)
      rcases hr3 state with h0 | h1 | hm1
      · exact absurd h0 hm0
      · have hne1 : ¬ lk state = -1 := by rw [h1]; decide
        simp only [solveStep, if_neg hvis, if_neg hne1, if_pos h1]
        have hpsnd : (reverse_graph g state).Nodup :=
          reverse_graph_nodup g hnd hvnd state
        obtain ⟨hw1, -, -⟩ := winParents_char g (state :: visited)
          (reverse_graph g state) hpsnd lk wc rest
        rw [hw1 p]
        by_cases hcond : p ∈ reverse_graph g state ∧
            wc p + 1 = (succsOf g p).length
        · rw [if_pos hcond]
          rcases hr3 p with hp0 | hp1 | hpm
          · exact absurd hp0 hp
          · exact absurd (counterFull_loss g hnd _ hFull state hvis h1 p
              hcond.1 hcond.2) (fun hf => val_disjoint g true p (hws p hp1) hf)
          · exact hpm.symm
        · rw [if_neg hcond]
      · simp only [solveStep, if_neg hvis, if_pos hm1]
        rw [lossParents_lk _ _ lk rest p]
        by_cases hqps : p ∈ reverse_graph g state
        · rw [if_pos hqps]
          rcases hr3 p with hp0 | hp1 | hpm
          · exact absurd hp0 hp
          · exact hp1.symm
          · exact absurd hpm (lossParent_not_loss g hnd _ hFull state hm1 p hqps)
        · rw [if_neg hqps]

theorem solveIter_inv (g : Graph) (hnd : (keysG g).Nodup)
    (hvnd : ∀ p v, lookupG g p = some v → v.Nodup) (n : Nat) :
    SInv g (solveIter g n) := by
  induction n with
  | zero => exact initSolve_inv g hnd
  | succ n ih =>
    rw [solveIter, Function.iterate_succ_apply']
    exact solveStep_inv g hnd hvnd _ ih

theorem solveIter_succ (g : Graph) (n : Nat) :
    solveIter g (n + 1) = solveStep g (reverse_graph g) (solveIter g n) := by
  rw [solveIter, Function.iterate_succ_apply']
  rfl

theorem solveIter_stable (g : Graph) (hnd : (keysG g).Nodup)
    (hvnd : ∀ p v, lookupG g p = some v → v.Nodup) (n : Nat) (p : Position)
    (hp : (solveIter g n).lk p ≠ 0) :
    (solveIter g (n + 1)).lk p = (solveIter g n).lk p := by
  rw [solveIter_succ]
  exact solveStep_stable g hnd hvnd _ (solveIter_inv g hnd hvnd n) p hp

theorem solveIter_persist (g : Graph) (hnd : (keysG g).Nodup)
    (hvnd : ∀ p v, lookupG g p = some v → v.Nodup) (n : Nat) (p : Position)
    (hp : (solveIter g n).lk p ≠ 0) :
    ∀ m, n ≤ m → (solveIter g m).lk p = (solveIter g n).lk p := by
  intro m hm
  induction m with
  | zero =>
    have : n = 0 := by omega
    subst this; rfl
  | succ m ih =>
    rcases Nat.lt_or_ge n (m + 1) with hlt | hge
    · have hnm : n ≤ m := by omega
      have heq := ih hnm
      rw [solveIter_stable g hnd hvnd m p (by rw [heq]; exact hp), heq]
    · have : n = m + 1 := by omega
      subst this; rfl

theorem solveStep_fix (g : Graph) (parents : Position → List Position)
    (σ : SolveState) (h : σ.stack = []) :
    solveStep g parents σ = σ := by
  obtain ⟨lk, wc, visited, stack, err⟩ := σ
  cases stack with
  | nil => rfl
  | cons a l => cases h

/-- Loop measure for the solver: pending parent-processing work for unvisited
keys, plus the stack length. -/
def solveMeasure (g : Graph) (σ : SolveState) : Nat :=
  (((keysG g).filter (fun p => decide (p ∉ σ.visited))).map
    (fun p => (reverse_graph g p).length + 1)).sum + σ.stack.length

theorem sum_filter_erase (l : List Position) (hnd : l.Nodup) (state : Position)
    (hs : state ∈ l) (visited : List Position) (hv : state ∉ visited)
    (f : Position → Nat) :
    ((l.filter (fun p => decide (p ∉ state :: visited))).map f).sum + f state =
      ((l.filter (fun p => decide (p ∉ visited))).map f).sum := by
  induction l with
  | nil => cases hs
  | cons a l ih =>
    rw [List.nodup_cons] at hnd
    rcases List.mem_cons.1 hs with rfl | hs'
    · have hfe : l.filter (fun p => decide (p ∉ state :: visited)) =
          l.filter (fun p => decide (p ∉ visited)) := by
        apply List.filter_congr
        intro x hx
        have hxa : ¬ x = state := fun hxa => hnd.1 (hxa ▸ hx)
        simp [List.mem_cons, hxa]
      simp only [List.filter_cons]
      rw [if_neg (by simp), if_pos (by simpa using hv), hfe]
      simp only [List.map_cons, List.sum_cons]
      omega
    · have ha : ¬ a = state := fun haa => hnd.1 (haa ▸ hs')
      simp only [List.filter_cons]
      by_cases hav : a ∈ visited
      · rw [if_neg (by simp [hav]), if_neg (by simp [hav])]
        exact ih hnd.2 hs'
      · rw [if_pos (by simp [List.mem_cons, ha, hav]), if_pos (by simp [hav])]
        simp only [List.map_cons, List.sum_cons]
        have := ih hnd.2 hs'
        omega

theorem sum_map_le (l : List Position) (f : Position → Nat) (B : Nat)
    (h : ∀ x ∈ l, f x ≤ B) : (l.map f).sum ≤ l.length * B := by
  induction l with
  | nil => simp
  | cons a l ih =>
    simp only [List.map_cons, List.sum_cons, List.length_cons]
    have h1 := h a (List.mem_cons_self _ _)
    have h2 := ih (fun x hx => h x (List.mem_cons_of_mem _ hx))
    have : (l.length + 1) * B = l.length * B + B := by ring
    omega

theorem solveStep_measure (g : Graph) (hnd : (keysG g).Nodup)
    (hvnd : ∀ p v, lookupG g p = some v → v.Nodup)
    (σ : SolveState) (h : SInv g σ) (hne : σ.stack ≠ []) :
    solveMeasure g (solveStep g (reverse_graph g) σ) < solveMeasure g σ := by
  obtain ⟨lk, wc, visited, stack, err⟩ := σ
  obtain ⟨hws, hls, hr3, hsm, hvm, hmr, hlp, hwj, hcl, hsk, hne2⟩ := h
  cases stack with
  | nil => exact absurd rfl hne
  | cons state rest =>
    dsimp only at hsm hsk hr3
    have hkey : state ∈ keysG g := hsk state (List.mem_cons_self _ _)
    by_cases hvis : state ∈ visited
    · simp only [solveStep, if_pos hvis, solveMeasure, List.length_cons]
      omega
    · have hsum : (((keysG g).filter
          (fun p => decide (p ∉ state :: visited))).map
            (fun p => (reverse_graph g p).length + 1)).sum +
          ((reverse_graph g state).length + 1) =
          (((keysG g).filter (fun p => decide (p ∉ visited))).map
            (fun p => (reverse_graph g p).length + 1)).sum :=
        sum_filter_erase (keysG g) hnd state hkey visited hvis
          (fun p => (reverse_graph g p).length + 1)
      have hm0 : lk state ≠ 0 := hsm state (List.mem_cons_self _ _)
      rcases hr3 state with h0 | h1 | hm1
      · exact absurd h0 hm0
      · have hne1 : ¬ lk state = -1 := by rw [h1]; decide
        simp only [solveStep, if_neg hvis, if_neg hne1, if_pos h1, solveMeasure,
          List.length_cons]
        have hpsnd := reverse_graph_nodup g hnd hvnd state
        obtain ⟨-, -, hw3⟩ := winParents_char g (state :: visited)
          (reverse_graph g state) hpsnd lk wc rest
        rw [hw3, List.length_append, List.length_reverse]
        have hfl := List.length_filter_le
          (fun p => decide (wc p + 1 = (succsOf g p).length) &&
            decide (p ∉ state :: visited)) (reverse_graph g state)
        omega
      · simp only [solveStep, if_neg hvis, if_pos hm1, solveMeasure,
          List.length_cons]
        rw [lossParents_stack, List.length_append, List.length_reverse]
        have hfl := List.length_filter_le
          (fun p => decide (p ∉ state :: visited)) (reverse_graph g state)
        omega

theorem solveIterate_fix (g : Graph) (parents : Position → List Position)
    (n : Nat) (σ : SolveState) (h : σ.stack = []) :
    (solveStep g parents)^[n] σ = σ := by
  induction n with
  | zero => rfl
  | succ n ih => rw [Function.iterate_succ_apply, solveStep_fix g parents σ h, ih]

theorem solve_term (g : Graph) (hnd : (keysG g).Nodup)
    (hvnd : ∀ p v, lookupG g p = some v → v.Nodup) :
    ∀ (n : Nat) (σ : SolveState), SInv g σ → solveMeasure g σ ≤ n →
      ((solveStep g (reverse_graph g))^[n] σ).stack = [] := by
  intro n
  induction n with
  | zero =>
    intro σ _ hm
    unfold solveMeasure at hm
    have : σ.stack.length = 0 := by omega
    exact List.length_eq_zero.1 this
  | succ n ih =>
    intro σ hinv hm
    by_cases hs : σ.stack = []
    · rw [solveIterate_fix g _ _ σ hs]; exact hs
    · rw [Function.iterate_succ_apply]
      apply ih _ (solveStep_inv g hnd hvnd σ hinv)
      have := solveStep_measure g hnd hvnd σ hinv hs
      omega

theorem graph_vals_nodup (k : Nat) (g : Graph)
    (hg : generate_graph k = some g) :
    ∀ p v, lookupG g p = some v → v.Nodup := by
  obtain ⟨-, vals, -, -, -, -⟩ := generate_graph_final k g hg
  intro p v hv
  rcases vals p v hv with h1 | ⟨-, h2⟩
  · subst h1; exact List.nodup_nil
  · rw [h2]; exact nextStates_nodup k p

theorem solve_graph_eq (k : Nat) (g : Graph)
    (hg : generate_graph k = some g) :
    solve_graph k = some (solveIter g (solveFuel g)).lk ∧
      (solveIter g (solveFuel g)).stack = [] := by
  have hnd : (keysG g).Nodup := (generate_graph_final k g hg).1
  have hvnd := graph_vals_nodup k g hg
  have hM : solveMeasure g (initSolve g) ≤ solveFuel g := by
    unfold solveMeasure solveFuel
    have h1 : (keysG g).filter
        (fun p => decide (p ∉ (initSolve g).visited)) = keysG g := by
      apply List.filter_eq_self.2
      intro a _
      simp [initSolve]
    rw [h1]
    have h2 : (((keysG g).map (fun p => (reverse_graph g p).length + 1)).sum) ≤
        (keysG g).length * (g.length + 1) :=
      sum_map_le _ _ _ (fun x _ => by
        have := reverse_graph_len g hnd hvnd x
        omega)
    have h3 : (keysG g).length = g.length := List.length_map g Prod.fst
    rw [h3] at h2
    have h4 : (initSolve g).stack.length ≤ g.length := by
      simp only [initSolve, List.length_reverse, List.length_map]
      exact List.length_filter_le _ _
    omega
  have hstack := solve_term g hnd hvnd (solveFuel g) (initSolve g)
    (initSolve_inv g hnd) hM
  have hstack' : (solveIter g (solveFuel g)).stack = [] := hstack
  constructor
  · simp only [solve_graph, hg]
    rw [if_pos hstack']
  · exact hstack'

/-- C1: for every `k ≥ 2`, in the classification table returned by
`solve_graph k`: every terminal position (empty successor list) is classified
LOSS; every predecessor (in the reverse graph) of a LOSS position is
classified WIN; and every WIN position has at least one successor classified
LOSS. -/
theorem claim_C1 (k : Nat) (_hk : 2 ≤ k) :
    ∃ g t, generate_graph k = some g ∧ solve_graph k = some t ∧
      ∀ p ∈ keysG g,
        (succsOf g p = [] → t p = -1) ∧
        (t p = -1 → ∀ q ∈ reverse_graph g p, t q = 1) ∧
        (t p = 1 → ∃ c ∈ succsOf g p, t c = -1) := by
  obtain ⟨g, hg⟩ := Option.isSome_iff_exists.1 (generate_graph_isSome k)
  obtain ⟨hsolve, hstack⟩ := solve_graph_eq k g hg
  have hnd : (keysG g).Nodup := (generate_graph_final k g hg).1
  have hvnd := graph_vals_nodup k g hg
  have hinv := solveIter_inv g hnd hvnd (solveFuel g)
  refine ⟨g, (solveIter g (solveFuel g)).lk, hg, hsolve, ?_⟩
  intro p hp
  refine ⟨?_, ?_, ?_⟩
  · intro hsucc
    obtain ⟨v, hv⟩ := mem_keysG_lookup g p hp
    have hveq : v = [] := by
      unfold succsOf at hsucc
      rw [hv] at hsucc
      simpa using hsucc
    subst hveq
    have hinit : (initSolve g).lk p = -1 := by
      simp only [initSolve]
      rw [hv]
    have hpersist := solveIter_persist g hnd hvnd 0 p
      (by rw [show solveIter g 0 = initSolve g from rfl, hinit]; decide)
      (solveFuel g) (Nat.zero_le _)
    rw [hpersist, show solveIter g 0 = initSolve g from rfl, hinit]
  · intro hm1 q hq
    rcases hinv.marked_reached p (by rw [hm1]; decide) with hvis | hstk
    · exact hinv.loss_processed p hvis hm1 q hq
    · rw [hstack] at hstk
      cases hstk
  · intro h1
    exact hinv.win_justified p h1

/-- C1 witness at `k = 2`. -/
theorem claim_C1_witness :
    2 ≤ 2 ∧ ∃ g t, generate_graph 2 = some g ∧ solve_graph 2 = some t ∧
      ∀ p ∈ keysG g,
        (succsOf g p = [] → t p = -1) ∧
        (t p = -1 → ∀ q ∈ reverse_graph g p, t q = 1) ∧
        (t p = 1 → ∃ c ∈ succsOf g p, t c = -1) :=
  ⟨le_refl 2, claim_C1 2 (le_refl 2)⟩

/-- C6: during the worklist propagation of `solve_graph`, once a position's
entry is set to WIN (+1) or LOSS (-1), one further loop iteration never
changes it to a different value. -/
theorem claim_C6 (k : Nat) (_hk : 2 ≤ k) (g : Graph)
    (hg : generate_graph k = some g) (n : Nat) (p : Position) (v : Int)
    (hv : (solveIter g n).lk p = v) (hnz : v ≠ 0) :
    (solveIter g (n + 1)).lk p = v := by
  have hnd : (keysG g).Nodup := (generate_graph_final k g hg).1
  have hvnd := graph_vals_nodup k g hg
  rw [← hv]
  exact solveIter_stable g hnd hvnd n p (by rw [hv]; exact hnz)

/-- The graph produced for `k = 2` (used by concrete witnesses). -/
def G2 : Graph := (generate_graph 2).getD []

/-- C6 witness: at `k = 2`, the terminal position `(0,1,0,0,1)` is seeded LOSS
and is still LOSS after the first iteration. -/
theorem claim_C6_witness :
    2 ≤ 2 ∧ generate_graph 2 = some G2 ∧
      (solveIter G2 0).lk ⟨0, 1, 0, 0, 1⟩ = -1 ∧ (-1 : Int) ≠ 0 ∧
      (solveIter G2 (0 + 1)).lk ⟨0, 1, 0, 0, 1⟩ = -1 :=
  ⟨le_refl 2, by decide, by decide, by decide,
    claim_C6 2 (le_refl 2) G2 (by decide) 0 ⟨0, 1, 0, 0, 1⟩ (-1) (by decide)
      (by decide)⟩

/-- C8: the "draw node selected for propagation" branch of `solve_graph` is
unreachable: the error flag stays `false` at every iteration, and any state
at the top of the worklist that is not yet visited is classified `+1` or
`-1` at that moment. -/
theorem claim_C8 (k : Nat) (_hk : 2 ≤ k) (g : Graph)
    (hg : generate_graph k = some g) (n : Nat) :
    (solveIter g n).err = false ∧
      ∀ state rest, (solveIter g n).stack = state :: rest →
        state ∉ (solveIter g n).visited →
        (solveIter g n).lk state = 1 ∨ (solveIter g n).lk state = -1 := by
  have hnd : (keysG g).Nodup := (generate_graph_final k g hg).1
  have hvnd := graph_vals_nodup k g hg
  have hinv := solveIter_inv g hnd hvnd n
  refine ⟨hinv.no_err, ?_⟩
  intro state rest hstk _
  have hm := hinv.stack_marked state (by rw [hstk]; exact List.mem_cons_self _ _)
  rcases hinv.range3 state with h0 | h1 | hm1
  · exact absurd h0 hm
  · exact Or.inl h1
  · exact Or.inr hm1

/-- C8 witness at `k = 2`, `n = 1`. -/
theorem claim_C8_witness :
    2 ≤ 2 ∧ generate_graph 2 = some G2 ∧
      ((solveIter G2 1).err = false ∧
        ∀ state rest, (solveIter G2 1).stack = state :: rest →
          state ∉ (solveIter G2 1).visited →
          (solveIter G2 1).lk state = 1 ∨ (solveIter G2 1).lk state = -1) :=
  ⟨le_refl 2, by decide, claim_C8 2 (le_refl 2) G2 (by decide) 1⟩

/-! ### `find_path` (generic BFS utility) -/

/-- The inner `for neighbor in graph.get(vertex, [])` loop of `find_path`
(lines 121-126), with its early return when the end vertex is reached. -/
def fpNeighbors (endv : Position) :
    List Position → List Position → List (Position × List Position) →
      List Position →
      List Position ⊕ (List (Position × List Position) × List Position)
  | [], _, queue, visited => Sum.inr (queue, visited)
  | n :: ns, path, queue, visited =>
    if n = endv then Sum.inl (path ++ [n])
    else if n ∈ visited then fpNeighbors endv ns path queue visited
    else fpNeighbors endv ns path (queue ++ [(n, path ++ [n])]) (n :: visited)

/-- The `while queue` loop of `find_path` (lines 119-127), fueled.  The outer
`none` means the fuel ran out (which cannot happen: every enqueued vertex is
freshly added to `visited`); `some r` is the Python return value, with
`r = none` for Python's `None`. -/
def fpLoop (graph : Graph) (endv : Position) :
    Nat → List (Position × List Position) → List Position →
      Option (Option (List Position))
  | 0, _, _ => none
  | _ + 1, [], _ => some none
  | fuel + 1, (vertex, path) :: queue, visited =>
    match fpNeighbors endv (succsOf graph vertex) path queue visited with
    | Sum.inl found => some (some found)
    | Sum.inr r => fpLoop graph endv fuel r.1 r.2

/-- `find_path` from the source (lines 97-127): BFS from `start` to `endv`
over an arbitrary adjacency mapping.  Line 111 returns `None` when `start`
or `endv` is absent from the mapping — the same value used for "no path
exists". -/
def find_path (graph : Graph) (start endv : Position) :
    Option (Option (List Position)) :=
  if ¬ hasKey graph start ∨ ¬ hasKey graph endv then some none
  else if start = endv then some (some [start])
  else fpLoop graph endv (graph.length * graph.length + graph.length + 1)
    [(start, [start])] [start]

/-- C10 counterexample: the "no such vertex" outcome is *not* distinguishable
from the "no path exists" outcome.  On the two-key edgeless graph below,
querying two present-but-disconnected vertices and querying two absent
vertices both return exactly `None`. -/
theorem claim_C10_cex :
    find_path [(⟨1, 1, 1, 1, 0⟩, []), (⟨2, 2, 2, 2, 0⟩, [])]
        ⟨1, 1, 1, 1, 0⟩ ⟨2, 2, 2, 2, 0⟩ = some none ∧
      find_path [(⟨1, 1, 1, 1, 0⟩, []), (⟨2, 2, 2, 2, 0⟩, [])]
        ⟨3, 3, 3, 3, 0⟩ ⟨4, 4, 4, 4, 0⟩ = some none := by
  constructor
  · decide
  · decide

/-- C10 (amended): `find_path` detects an absent `start` or `end` with an
early membership check but reports it with the same `None` outcome that is
returned when both positions are present and no path connects them. -/
theorem claim_C10 (graph : Graph) (start endv : Position)
    (h : ¬ hasKey graph start = true ∨ ¬ hasKey graph endv = true) :
    find_path graph start endv = some none := by
  unfold find_path
  rw [if_pos h]

/-- C10 witness: an absent pair of vertices on the two-key graph. -/
theorem claim_C10_witness :
    (¬ hasKey [(⟨1, 1, 1, 1, 0⟩, []), ((⟨2, 2, 2, 2, 0⟩ : Position), [])]
        (⟨3, 3, 3, 3, 0⟩ : Position) = true ∨
      ¬ hasKey [(⟨1, 1, 1, 1, 0⟩, []), ((⟨2, 2, 2, 2, 0⟩ : Position), [])]
        (⟨4, 4, 4, 4, 0⟩ : Position) = true) ∧
      find_path [(⟨1, 1, 1, 1, 0⟩, []), (⟨2, 2, 2, 2, 0⟩, [])]
        ⟨3, 3, 3, 3, 0⟩ ⟨4, 4, 4, 4, 0⟩ = some none :=
  ⟨by decide, claim_C10 _ _ _ (by decide)⟩
